import Mathlib

/-!
Canonical index resolution of `lazy_tensor_core` (`csrc/ops/index_ops.cpp`), with the
shape equality of `lazy_tensors/shape.h`, the TS computation of
`ts_backend/ts_lowering_context.h` and the default clone of `ts_backend/TsNode.h`.

A shallow embedding of the index-resolution helpers of the lazy tensor core and
theorems about them.  Tensors are records of metadata plus a flat storage read
through strides, the way ATen tensors are; checks that abort (`CHECK_*`) and
library calls that can fail are modelled with `Except Failure`.
-/

set_option autoImplicit false

namespace LazyIndex

/-! ## Data model -/

/-- The element kinds of `at::ScalarType` that the indexing code distinguishes. -/
inductive ScalarType
  | Byte | Char | Short | Int | Long | Half | Float | Double | Bool | Undefined
  deriving DecidableEq, Repr

/-- Ways in which a call can fail instead of returning. -/
inductive Failure
  /-- A `CHECK`, `CHECK_EQ`, `CHECK_LE` or `CHECK_LT` did not hold. -/
  | check_failed
  /-- A dimension argument of `at::Tensor::size` was outside the tensor's rank. -/
  | dim_out_of_range
  /-- An element was read past the end of its container. -/
  | invalid_range
  /-- `at::Tensor::permute` was handed something that is not a permutation of the axes. -/
  | bad_permutation
  /-- `at::expand_outplace` was handed shapes that do not broadcast. -/
  | not_broadcastable
  /-- A `std::runtime_error` was thrown. -/
  | runtime_error
  deriving DecidableEq, Repr

deriving instance DecidableEq for Except

/-- Modelled from the spec: `at::Tensor` belongs to the tensor library, which is not
among the sources; it is the spec's "tensor descriptor" (element kind and dimension
sizes), either absent (undefined) or present.  A tensor is a definedness flag, an
element kind, one `(size, stride)` pair per axis of a view into a flat storage that
starts at `offset`, and the device it lives on. -/
structure Tensor where
  defined : Bool
  scalar_type : ScalarType
  axes : List (Nat × Nat)
  storage : List Int
  offset : Nat
  device : Nat
  deriving DecidableEq, Repr

/-- The default-constructed `at::Tensor()`, which is undefined. -/
def Tensor.undefined : Tensor :=
  { defined := false, scalar_type := ScalarType.Undefined, axes := [(0, 1)],
    storage := [], offset := 0, device := 0 }

/-- The sizes of a tensor, `at::Tensor::sizes`. -/
def Tensor.sizes (t : Tensor) : List Nat := t.axes.map Prod.fst

/-- The strides of a tensor, `at::Tensor::strides`. -/
def Tensor.strides (t : Tensor) : List Nat := t.axes.map Prod.snd

/-- Rank of a tensor, `at::Tensor::dim`. -/
def Tensor.dim (t : Tensor) : Nat := t.sizes.length

/-- Modelled from the spec: `at::Tensor::size` belongs to the tensor library, which is
not among the sources; it is the size of one dimension ("dimension sizes" of the
spec) and rejects a dimension outside the rank. -/
def Tensor.size (t : Tensor) (d : Nat) : Except Failure Nat :=
  match t.sizes[d]? with
  | some s => Except.ok s
  | none => Except.error Failure.dim_out_of_range

/-- Reorders a per-axis list by an axis order: entry `i` of the result is entry
`order[i]` of the input. -/
def permuteList {α : Type} [Inhabited α] (order : List Nat) (xs : List α) : List α :=
  order.map (fun d => xs.getD d default)

/-- Modelled from the spec: `at::Tensor::permute` belongs to the tensor library, which
is not among the sources; the spec calls it the "axis transpose" of the base.  Axis
`i` of the result is axis `dims[i]` of the input, the storage is shared, and the call
fails unless `dims` names every axis exactly once. -/
def Tensor.permute (t : Tensor) (dims : List Nat) : Except Failure Tensor :=
  if dims.length = t.dim ∧ (∀ d ∈ dims, d < t.dim) ∧ dims.Nodup then
    Except.ok { t with axes := permuteList dims t.axes }
  else Except.error Failure.bad_permutation

/-- Modelled from the spec: `lazy_tensors::InversePermutation` is declared in
`permutation_util.h` and its body is not among the sources.  The spec calls its
result "the inverse permutation"; entry `j` is the position at which the input
permutation holds `j`. -/
def InversePermutation (input_permutation : List Nat) : List Nat :=
  (List.range input_permutation.length).map (fun j => input_permutation.indexOf j)

/-- Modelled from the spec: `lazy_tensors::util::Iota<int64_t>(n)` is not among the
sources; the spec calls its result the "identity permutation", `[0, .., n-1]`. -/
def Iota (size : Nat) : List Nat := List.range size

/-- Modelled from the spec: the struct `CanonicalIndexInfo` is declared in
`index_ops.h`, which is not among the sources; its fields are the spec's "transposed
base reference, reduced index list, the permutation that would invert any transpose
applied, and the dimension at which the contiguous index block begins", in the order
in which `TransposeToFront` initialises them. -/
structure CanonicalIndexInfo where
  base : Tensor
  indices : List Tensor
  result_permutation : List Nat
  start_dim : Nat
  deriving DecidableEq, Repr

/-- The struct `IndexAdjacencyInfo`. -/
structure IndexAdjacencyInfo where
  contiguous_non_null : Bool
  start_dim : Nat
  deriving DecidableEq, Repr

/-! ## Adjacency of the non-null indices -/

/-- The search of `std::find_if` on random-access iterators, started at position
`first` with `rest` the elements from there to the end of the container.  It works
from the distance `last - first`: while the distance is positive it tests the element
at `first` and advances, and once the distance is not positive (also when `last` lies
before `first`) it returns `last` without reading an element.  A `last` beyond the end
of the container makes it read past the end, which is reported as `invalid_range`. -/
def find_if_loop {α : Type} (pred : α → Bool) : List α → Nat → Nat → Except Failure Nat
  | [], first, last =>
    if last ≤ first then Except.ok last else Except.error Failure.invalid_range
  | x :: rest, first, last =>
    if last ≤ first then Except.ok last
    else if pred x then Except.ok first
    else find_if_loop pred rest (first + 1) last

/-- `std::find_if` on positions `[first, last)` of `xs`; the result is a position. -/
def find_if {α : Type} (pred : α → Bool) (xs : List α) (first last : Nat) :
    Except Failure Nat :=
  find_if_loop pred (xs.drop first) first last

/-- The lambda `is_defined` of `GetIndexAdjacencyInfo`. -/
def is_defined (tensor : Tensor) : Bool := tensor.defined

/-- The lambda `is_null` of `GetIndexAdjacencyInfo`. -/
def is_null (tensor : Tensor) : Bool := !tensor.defined

/-- `GetIndexAdjacencyInfo`: `start` is found scanning forwards, `stop` scanning the
reversed list (`rbegin` to `rend`), `stop.base()` is the forward position just past
the element `stop` points at, and `it` scans `[start, stop.base())` for a null.  On a
list without a defined entry `start` is the end and `stop.base()` the beginning of the
list, the third search returns `stop.base()` at once, and the list counts as
contiguous. -/
def GetIndexAdjacencyInfo (indices : List Tensor) : Except Failure IndexAdjacencyInfo := do
  let start ← find_if is_defined indices 0 indices.length
  let stop ← find_if is_defined indices.reverse 0 indices.length
  let stop_base := indices.length - stop
  let it ← find_if is_null indices start stop_base
  let start_dim := start
  pure { contiguous_non_null := decide (it = stop_base), start_dim := start_dim }

/-! ## Transposing the indexed axes to the front -/

/-- Whether position `i` of the index list holds a defined tensor. -/
def definedAt (indices : List Tensor) (i : Nat) : Bool :=
  (indices.getD i Tensor.undefined).defined

/-- First loop of `TransposeToFront`: positions of defined indices are pushed to
`dims`, the indices themselves to `transposed_indices`. -/
def pushDefined (indices : List Tensor) : List Nat × List Tensor :=
  (List.range indices.length).foldl
    (fun acc i =>
      if definedAt indices i then
        (acc.1 ++ [i], acc.2 ++ [indices.getD i Tensor.undefined])
      else acc)
    ([], [])

/-- Second loop of `TransposeToFront`: positions of undefined indices are pushed. -/
def pushNull (indices : List Tensor) (dims : List Nat) : List Nat :=
  (List.range indices.length).foldl
    (fun acc i => if !definedAt indices i then acc ++ [i] else acc) dims

/-- Third loop of `TransposeToFront`: the axes past the index list are pushed. -/
def pushTrailing (first base_rank : Nat) (dims : List Nat) : List Nat :=
  (List.range' first (base_rank - first)).foldl (fun acc i => acc ++ [i]) dims

/-- The axis order `dims` that `TransposeToFront` builds. -/
def transposeDims (base_rank : Nat) (indices : List Tensor) : List Nat :=
  pushTrailing indices.length base_rank (pushNull indices (pushDefined indices).1)

/-- `TransposeToFront`. -/
def TransposeToFront (base : Tensor) (indices : List Tensor) :
    Except Failure CanonicalIndexInfo :=
  let base_rank := base.dim
  if indices.length ≤ base_rank then
    let dims := transposeDims base_rank indices
    let transposed_indices := (pushDefined indices).2
    match GetIndexAdjacencyInfo indices with
    | Except.error e => Except.error e
    | Except.ok adjacency_info =>
      if adjacency_info.contiguous_non_null then
        Except.ok { base := base, indices := transposed_indices,
                    result_permutation := Iota base_rank,
                    start_dim := adjacency_info.start_dim }
      else
        match base.permute dims with
        | Except.error e => Except.error e
        | Except.ok permuted =>
          Except.ok { base := permuted, indices := transposed_indices,
                      result_permutation := InversePermutation dims, start_dim := 0 }
  else Except.error Failure.check_failed

/-! ## Expanding masks -/

/-- Every coordinate of a tensor of the given sizes, in row-major order. -/
def allCoords : List Nat → List (List Nat)
  | [] => [[]]
  | s :: rest => (List.range s).flatMap (fun i => (allCoords rest).map (fun c => i :: c))

/-- The storage position of a coordinate: the offset plus the stride-weighted sum. -/
def storagePos (offset : Nat) : List (Nat × Nat) → List Nat → Nat
  | [], _ => offset
  | _ :: _, [] => offset
  | (_, stride) :: axes, c :: coord => storagePos (offset + c * stride) axes coord

/-- The element of a tensor at a coordinate. -/
def Tensor.elem (t : Tensor) (coord : List Nat) : Int :=
  t.storage.getD (storagePos t.offset t.axes coord) 0

/-- The coordinates at which a tensor is nonzero, in row-major order. -/
def Tensor.nonzeroCoords (t : Tensor) : List (List Nat) :=
  (allCoords t.sizes).filter (fun c => t.elem c != 0)

/-- Modelled from the spec: `at::Tensor::nonzero` belongs to the tensor library, which
is not among the sources; the spec calls its result "the coordinates of its nonzero
entries".  The result is a contiguous 64-bit integer tensor with one row per nonzero
entry and one column per dimension of the input. -/
def Tensor.nonzero (t : Tensor) : Tensor :=
  { defined := true, scalar_type := ScalarType.Long,
    axes := [(t.nonzeroCoords.length, t.dim), (t.dim, 1)],
    storage := (t.nonzeroCoords.flatten).map Int.ofNat, offset := 0, device := t.device }

/-- Modelled from the spec: `at::Tensor::select` belongs to the tensor library, which
is not among the sources; `select(dim, index)` is the view that fixes one coordinate,
so that `nonzero.select(1, j)` is the 1-D column `j` ("one per masked dimension").  It
fails when `dim` or `index` is out of range. -/
def Tensor.select (t : Tensor) (dim index : Nat) : Except Failure Tensor :=
  match t.axes[dim]? with
  | none => Except.error Failure.dim_out_of_range
  | some (size, stride) =>
    if index < size then
      Except.ok { t with axes := t.axes.eraseIdx dim, offset := t.offset + index * stride }
    else Except.error Failure.dim_out_of_range

/-- The elements of a 1-D tensor, in order. -/
def Tensor.toList1d (t : Tensor) : List Int :=
  match t.axes with
  | [(size, _)] => (List.range size).map (fun i => t.elem [i])
  | _ => []

/-- Whether an entry of the index list is a byte or boolean mask, the condition of the
`if` in `ExpandByteTensors`. -/
def isMask (index : Option Tensor) : Bool :=
  match index with
  | some t => t.scalar_type == ScalarType.Byte || t.scalar_type == ScalarType.Bool
  | none => false

/-- The first inner loop of `ExpandByteTensors`: for each `j` the size of the mask in
dimension `j` is compared with the size of `self` in dimension `result.size() + j`. -/
def checkMaskSizes (self index : Tensor) (result_size : Nat) : List Nat → Except Failure Unit
  | [] => Except.ok ()
  | j :: js => do
    let src_idx := result_size + j
    let mask_size ← index.size j
    let self_size ← self.size src_idx
    if mask_size = self_size then checkMaskSizes self index result_size js
    else Except.error Failure.check_failed

/-- The second inner loop of `ExpandByteTensors`: `nonzero.select(1, j)` is appended
for each `j`. -/
def emplaceColumns (nonzero : Tensor) (result : List Tensor) :
    List Nat → Except Failure (List Tensor)
  | [] => Except.ok result
  | j :: js => do
    let column ← nonzero.select 1 j
    emplaceColumns nonzero (result ++ [column]) js

/-- The outer loop of `ExpandByteTensors`, with the `result` vector built so far. -/
def expandLoop (self : Tensor) (result : List Tensor) :
    List (Option Tensor) → Except Failure (List Tensor)
  | [] => Except.ok result
  | index :: rest =>
    match index with
    | some t =>
      if t.scalar_type == ScalarType.Byte || t.scalar_type == ScalarType.Bool then do
        checkMaskSizes self t result.length (List.range t.dim)
        let nonzero := t.nonzero
        let result ← emplaceColumns nonzero result (List.range t.dim)
        expandLoop self result rest
      else expandLoop self (result ++ [t]) rest
    | none => expandLoop self (result ++ [Tensor.undefined]) rest

/-- `ExpandByteTensors`. -/
def ExpandByteTensors (self : Tensor) (indices : List (Option Tensor)) :
    Except Failure (List Tensor) :=
  expandLoop self [] indices

/-- Column `j` of the nonzero coordinates of `t`: the view `nonzero.select(1, j)`. -/
def nonzeroColumn (t : Tensor) (j : Nat) : Tensor :=
  { t.nonzero with axes := [(t.nonzeroCoords.length, t.dim)], offset := j }

/-- The tensors that stand for one entry of the index list after the expansion, in
the spec's words: a mask of rank `r` is replaced by `r` index tensors, one per masked
dimension, and any other entry stays (an absent one as the undefined tensor). -/
def expansionOf (index : Option Tensor) : List Tensor :=
  match index with
  | some t => if isMask (some t) then (List.range t.dim).map (nonzeroColumn t) else [t]
  | none => [Tensor.undefined]

/-- The number of tensors the entries before position `p` expand to. -/
def emittedBefore (indices : List (Option Tensor)) (p : Nat) : Nat :=
  ((indices.take p).flatMap expansionOf).length

/-- The sizes of mask `t` agree with those of `self` from dimension `pos` on. -/
def maskFits (self t : Tensor) (pos : Nat) : Prop :=
  ∀ j, j < t.dim → self.sizes[pos + j]? = t.sizes[j]?

/-- The rank of an entry of the index list, 0 for an absent one. -/
def entryRank (index : Option Tensor) : Nat :=
  match index with
  | some t => t.dim
  | none => 0

/-! ## The resolver -/

/-- `CheckIndexTensorTypes`: the scalar types reported through `LOG(ERROR)`, one per
defined index tensor that is neither long, byte nor boolean.  Logging is all the
function does; it returns `void` and throws nothing. -/
def CheckIndexTensorTypes (indices : List (Option Tensor)) : List ScalarType :=
  indices.filterMap (fun tensor =>
    match tensor with
    | some t =>
      if t.defined && (t.scalar_type != ScalarType.Long && t.scalar_type != ScalarType.Byte
          && t.scalar_type != ScalarType.Bool) then some t.scalar_type
      else none
    | none => none)

/-- Broadcasting of two size lists, aligned at their last dimension. -/
def inferSizeRev : List Nat → List Nat → Except Failure (List Nat)
  | [], bs => Except.ok bs
  | as, [] => Except.ok as
  | a :: as, b :: bs => do
    let rest ← inferSizeRev as bs
    if a = b then pure (a :: rest)
    else if a = 1 then pure (b :: rest)
    else if b = 1 then pure (a :: rest)
    else Except.error Failure.not_broadcastable

/-- The common size of the defined tensors of a list; `none` while no defined tensor
has been met. -/
def commonSizes : List Tensor → Option (List Nat) → Except Failure (Option (List Nat))
  | [], acc => Except.ok acc
  | t :: ts, acc =>
    if !t.defined then commonSizes ts acc
    else match acc with
      | none => commonSizes ts (some t.sizes)
      | some sizes => do
        let merged ← inferSizeRev sizes.reverse t.sizes.reverse
        commonSizes ts (some merged.reverse)

/-- The axes of a view expanded to `sizes`, both lists given from the last dimension:
a dimension that is stretched or new gets stride 0. -/
def expandAxesRev : List (Nat × Nat) → List Nat → List (Nat × Nat)
  | _, [] => []
  | [], s :: sizes => (s, 0) :: expandAxesRev [] sizes
  | (size, stride) :: axes, s :: sizes =>
    (if size = s then (size, stride) else (s, 0)) :: expandAxesRev axes sizes

/-- Modelled from the spec: `at::Tensor::expand` belongs to the tensor library, which
is not among the sources; it is the view by which "mismatched-but-broadcastable shapes
are expanded". -/
def Tensor.expand (t : Tensor) (sizes : List Nat) : Tensor :=
  { t with axes := (expandAxesRev t.axes.reverse sizes.reverse).reverse }

/-- Modelled from the spec: `at::expand_outplace` belongs to the tensor library, which
is not among the sources; the spec says "broadcast all resulting index tensors to a
common shape (standard broadcasting: mismatched-but-broadcastable shapes are expanded;
non-broadcastable shapes are a usage error)".  Undefined tensors stay undefined. -/
def expand_outplace (to_expand : List Tensor) : Except Failure (List Tensor) := do
  let sizes ← commonSizes to_expand none
  pure (to_expand.map (fun t =>
    if !t.defined then Tensor.undefined
    else match sizes with
      | some sizes => if t.sizes = sizes then t else t.expand sizes
      | none => t))

/-- Modelled from the spec: `at::Tensor::to(device)` belongs to the tensor library,
which is not among the sources; the spec says the index tensor is moved "onto the same
device as the base". -/
def Tensor.to (t : Tensor) (device : Nat) : Tensor := { t with device := device }

/-- What a call of `GetCanonicalIndexInfo` leaves behind: the scalar types it reported
through `LOG(ERROR)` and what it returned or threw. -/
structure ResolverOutcome where
  logged_errors : List ScalarType
  result : Except Failure CanonicalIndexInfo
  deriving DecidableEq, Repr

/-- `GetCanonicalIndexInfo`. -/
def GetCanonicalIndexInfo (base : Tensor) (orig_indices : List (Option Tensor)) :
    ResolverOutcome :=
  let logged := CheckIndexTensorTypes orig_indices
  { logged_errors := logged,
    result := do
      let expanded ← ExpandByteTensors base orig_indices
      let indices ← expand_outplace expanded
      let canonical_index_info ← TransposeToFront base indices
      pure { canonical_index_info with
             indices := canonical_index_info.indices.map (fun index =>
               if index.device != base.device then index.to base.device else index) } }

/-! ## Shapes, IR values and lazy tensors -/

/-- The class `lazy_tensors::Shape` of `shape.h`, with its four private fields. -/
inductive Shape where
  | mk (is_tuple : Bool) (at_element_type : ScalarType) (dimensions : List Int)
      (element_shapes : List Shape)

/-- `Shape::IsTuple`. -/
def Shape.IsTuple : Shape → Bool
  | Shape.mk is_tuple _ _ _ => is_tuple

/-- `Shape::at_element_type`. -/
def Shape.at_element_type : Shape → ScalarType
  | Shape.mk _ at_element_type _ _ => at_element_type

/-- The accessor `Shape::dimensions()` without argument. -/
def Shape.dims : Shape → List Int
  | Shape.mk _ _ dimensions _ => dimensions

/-- `Shape::tuple_shapes()`. -/
def Shape.tuple_shapes : Shape → List Shape
  | Shape.mk _ _ _ element_shapes => element_shapes

/-- `Shape::rank`. -/
def Shape.rank (s : Shape) : Int := s.dims.length

/-- `Shape::dimensions(int index)`: `CHECK_LT(index, dimensions_.size())`, then the
entry.  The comparison is made in `size_t`, so a negative index fails it too. -/
def Shape.dimensions (s : Shape) (index : Int) : Except Failure Int :=
  if 0 ≤ index ∧ index < s.dims.length then Except.ok (s.dims.getD index.toNat 0)
  else Except.error Failure.check_failed

/-- The constructor `Shape(element_type, dimensions)` of an array shape. -/
def Shape.array (element_type : ScalarType) (dimensions : List Int) : Shape :=
  Shape.mk false element_type dimensions []

/-- The number of elements of an array shape. -/
def Shape.numel (s : Shape) : Nat := (s.dims.map Int.toNat).prod

/-- The operation kinds of the `IndexAlongDim` nodes. -/
inductive OpKind
  | index_fill | index_add | index_copy
  deriving DecidableEq, Repr

/-- Modelled from the spec: `torch::lazy::Value` and the node classes are not among
the sources; an IR value is "a graph vertex: an operation tag, a fixed list of input
edges".  These are the values the indexing code builds. -/
inductive IrValue where
  /-- Data already on the device, of the given shape. -/
  | device_data (shape : Shape) (values : List Int)
  /-- The result of `GetIrValueForScalar`: a scalar expanded to `shape`. -/
  | scalar (value : Int) (shape : Shape)
  /-- The elementwise sum `lhs + rhs`. -/
  | add (lhs rhs : IrValue)
  /-- The elementwise comparison `input < other` with a scalar. -/
  | lt (input : IrValue) (other : Int)
  /-- The elementwise select `where(condition, input, other)`. -/
  | where_ (condition input other : IrValue)
  /-- The node `ir::ops::Expand`. -/
  | expand (input : IrValue) (size : List Int) (is_scalar_expand : Bool)
  /-- The node `ir::ops::IndexAlongDim`. -/
  | index_along_dim (op : OpKind) (buffer index value : IrValue) (dim : Int)
  /-- The node built by `lazy_tensor_aten_ops::stack`. -/
  | stack (inputs : List IrValue) (dim : Int)
  /-- The node `ir::ops::IndexGet`, the gather. -/
  | index_get (base indices : IrValue) (start_dim : Int)
  /-- The node `ir::ops::IndexPut`, the scatter. -/
  | index_put (base indices : IrValue) (start_dim : Int) (values : IrValue)
      (accumulate : Bool)
  /-- The node `ir::ops::Permute`. -/
  | permute (input : IrValue) (dims : List Int)

/-- The shape of `n` stacked tensors of dimensions `dims`: `n` is inserted at
position `dim`. -/
def stackDims (dims : List Int) (n : Nat) (dim : Int) : List Int :=
  dims.take dim.toNat ++ [(n : Int)] ++ dims.drop dim.toNat

/-- The dimensions of a gather of `base` by stacked indices: the dimensions before
`start_dim`, the dimensions of one index, and the dimensions past the indexed ones. -/
def indexGetDims (base indices : List Int) (start_dim : Int) : List Int :=
  base.take start_dim.toNat ++ indices.dropLast
    ++ base.drop (start_dim.toNat + (indices.getLastD 0).toNat)

mutual
/-- Modelled from the spec: `GetShapeFromTsValue` is declared in `TsNode.h` and shape
inference is not among the sources; a node has "a computed-or-deferred output shape".
Elementwise nodes have the shape of their first tensor operand, a comparison yields
booleans, an expansion has the requested sizes, an index-along-dim node and a scatter
the shape of their buffer, a stack the shape of its first input with the new
dimension, a gather the dimensions of `indexGetDims`, and a permute the reordered
dimensions. -/
def GetShapeFromTsValue : IrValue → Shape
  | IrValue.device_data shape _ => shape
  | IrValue.scalar _ shape => shape
  | IrValue.add lhs _ => GetShapeFromTsValue lhs
  | IrValue.lt input _ => Shape.array ScalarType.Bool (GetShapeFromTsValue input).dims
  | IrValue.where_ _ input _ => GetShapeFromTsValue input
  | IrValue.expand input size _ => Shape.array (GetShapeFromTsValue input).at_element_type size
  | IrValue.index_along_dim _ buffer _ _ _ => GetShapeFromTsValue buffer
  | IrValue.stack inputs dim =>
    Shape.array (shapeOfFirst inputs).at_element_type
      (stackDims (shapeOfFirst inputs).dims inputs.length dim)
  | IrValue.index_get base indices start_dim =>
    Shape.array (GetShapeFromTsValue base).at_element_type
      (indexGetDims (GetShapeFromTsValue base).dims (GetShapeFromTsValue indices).dims
        start_dim)
  | IrValue.index_put base _ _ _ _ => GetShapeFromTsValue base
  | IrValue.permute input dims =>
    Shape.array (GetShapeFromTsValue input).at_element_type
      (dims.map (fun d => (GetShapeFromTsValue input).dims.getD d.toNat 0))
/-- The shape of the first of a list of IR values, the default `Shape()` for none. -/
def shapeOfFirst : List IrValue → Shape
  | [] => Shape.mk false ScalarType.Undefined [] []
  | value :: _ => GetShapeFromTsValue value
end

/-- Reduction of an integer to the range of `int64_t`. -/
def wrap64 (x : Int) : Int := (x + 2 ^ 63) % 2 ^ 64 - 2 ^ 63

/-- Modelled from the spec: the lowering of the elementwise nodes is not among the
sources; the spec describes the wrap as "one comparison + conditional select per
dimension" on 64-bit integer indices.  The value of a node as the flat list of its
elements; nodes whose values the claims do not concern have none. -/
def IrValue.eval : IrValue → Option (List Int)
  | IrValue.device_data _ values => some values
  | IrValue.scalar value shape => some (List.replicate shape.numel value)
  | IrValue.add lhs rhs =>
    match lhs.eval, rhs.eval with
    | some xs, some ys => some (List.zipWith (fun x y => wrap64 (x + y)) xs ys)
    | _, _ => none
  | IrValue.lt input other =>
    match input.eval with
    | some xs => some (xs.map (fun x => if x < other then 1 else 0))
    | none => none
  | IrValue.where_ condition input other =>
    match condition.eval, input.eval, other.eval with
    | some cs, some xs, some ys =>
      some (List.zipWith (fun c xy => if c ≠ 0 then xy.1 else xy.2) cs (List.zip xs ys))
    | _, _, _ => none
  | IrValue.expand _ _ _ => none
  | IrValue.index_along_dim _ _ _ _ _ => none
  | IrValue.stack _ _ => none
  | IrValue.index_get _ _ _ => none
  | IrValue.index_put _ _ _ _ _ => none
  | IrValue.permute _ _ => none

/-- Modelled from the spec: the class `LazyTensor` is not among the sources; it is a
tensor of the "eager tensor layer" whose operations are recorded as IR values.  Of it
the indexing code reads the IR value, the element type and the device. -/
structure LazyTensor where
  ir_value : IrValue
  dtype : ScalarType
  device : Nat

/-- `LazyTensor::GetIrValue`. -/
def LazyTensor.GetIrValue (t : LazyTensor) : IrValue := t.ir_value

/-- `LazyTensor::shape`. -/
def LazyTensor.shape (t : LazyTensor) : Shape := GetShapeFromTsValue t.ir_value

/-- `LazyTensor::GetDevice`. -/
def LazyTensor.GetDevice (t : LazyTensor) : Nat := t.device

/-- Modelled from the spec: `LazyTensor::Create(ir_value, device)` is not among the
sources; the tensor it makes has the given IR value and device and the element type of
the value's shape. -/
def LazyTensor.Create (ir_value : IrValue) (device : Nat) : LazyTensor :=
  { ir_value := ir_value, dtype := (GetShapeFromTsValue ir_value).at_element_type,
    device := device }

/-- Modelled from the spec: `LazyGraphExecutor::GetIrValueForScalar(value, shape,
device)` is not among the sources; it is the IR value of a scalar expanded to the
dimensions of `shape`. -/
def GetIrValueForScalar (value : Int) (shape : Shape) (_device : Nat) : IrValue :=
  IrValue.scalar value shape

/-- Modelled from the spec: `lazy_tensor_aten_ops::lt(input, other)` with a scalar
`other` is not among the sources; it is the "one comparison" of the wrap pass. -/
def lazy_lt (input : LazyTensor) (other : Int) : LazyTensor :=
  { ir_value := IrValue.lt input.GetIrValue other, dtype := ScalarType.Bool,
    device := input.device }

/-- Modelled from the spec: `lazy_tensor_aten_ops::where(condition, input, other)` is
not among the sources; it is the "conditional select" of the wrap pass. -/
def lazy_where (condition input other : LazyTensor) : LazyTensor :=
  { ir_value := IrValue.where_ condition.GetIrValue input.GetIrValue other.GetIrValue,
    dtype := input.dtype, device := input.device }

/-! ## Wrapping negative indices -/

/-- The body of the loop of `WrapIndicesOnce` for one index and the size of its
dimension. -/
def wrapIndex (base dim_index : LazyTensor) (dim_size : Int) : LazyTensor :=
  let wrapped_dim_index := LazyTensor.Create
    (IrValue.add dim_index.GetIrValue
      (GetIrValueForScalar dim_size dim_index.shape base.GetDevice))
    base.GetDevice
  let wrap_cond := lazy_lt dim_index 0
  lazy_where wrap_cond wrapped_dim_index dim_index

/-- The loop of `WrapIndicesOnce` over the remaining indices, `dim_idx` being the
position of the first of them. -/
def wrapLoop (base : LazyTensor) (start_dim : Int) :
    List LazyTensor → Nat → Except Failure (List LazyTensor)
  | [], _ => Except.ok []
  | dim_index :: rest, dim_idx => do
    let dim_size ← base.shape.dimensions (dim_idx + start_dim)
    let canonical_indices ← wrapLoop base start_dim rest (dim_idx + 1)
    pure (wrapIndex base dim_index dim_size :: canonical_indices)

/-- `WrapIndicesOnce`.  The positions stay far below the range of `int`, in which
`dim_idx + start_dim` is handed to `Shape::dimensions`. -/
def WrapIndicesOnce (base : LazyTensor) (indices : List LazyTensor) (start_dim : Int) :
    Except Failure (List LazyTensor) :=
  if (indices.length : Int) ≤ base.shape.rank then wrapLoop base start_dim indices 0
  else Except.error Failure.check_failed

/-- The value an index value `v` is wrapped to against a dimension of size `d`. -/
def wrapValue (d v : Int) : Int := if v < 0 then v + d else v

/-! ## Fill, add and copy along a dimension -/

/-- What a node-building call leaves behind: the nodes it constructed, in order, and
what it returned or threw. -/
structure Built (α : Type) where
  created : List IrValue
  outcome : Except Failure α

/-- `EnsureRank1`. -/
def EnsureRank1 (index : IrValue) : Built IrValue :=
  if (GetShapeFromTsValue index).rank ≤ 1 then
    if (GetShapeFromTsValue index).rank = 0 then
      let node := IrValue.expand index [1] false
      { created := [node], outcome := Except.ok node }
    else { created := [], outcome := Except.ok index }
  else { created := [], outcome := Except.error Failure.check_failed }

/-- The common body of `IndexFillOp`, `IndexAddOp` and `IndexCopyOp`, which differ in
the operation kind only. -/
def indexAlongDimOp (op : OpKind) (buffer : IrValue) (dim : Int) (index value : IrValue) :
    Built IrValue :=
  let index_rank1 := EnsureRank1 index
  match index_rank1.outcome with
  | Except.error e => { created := index_rank1.created, outcome := Except.error e }
  | Except.ok index_value =>
    let node := IrValue.index_along_dim op buffer index_value value dim
    { created := index_rank1.created ++ [node], outcome := Except.ok node }

/-- `IndexFillOp`. -/
def IndexFillOp (buffer : IrValue) (dim : Int) (index value : IrValue) : Built IrValue :=
  indexAlongDimOp OpKind.index_fill buffer dim index value

/-- `IndexAddOp`. -/
def IndexAddOp (buffer : IrValue) (dim : Int) (index source : IrValue) : Built IrValue :=
  indexAlongDimOp OpKind.index_add buffer dim index source

/-- `IndexCopyOp`. -/
def IndexCopyOp (buffer : IrValue) (dim : Int) (index source : IrValue) : Built IrValue :=
  indexAlongDimOp OpKind.index_copy buffer dim index source

/-- `IndexFill` with a scalar value. -/
def IndexFillScalar (base : LazyTensor) (dim : Int) (index : LazyTensor) (value : Int) :
    Built IrValue :=
  if index.dtype = ScalarType.Long then
    if index.shape.rank ≤ 1 then
      let scalar := GetIrValueForScalar value
        (Shape.array base.shape.at_element_type []) base.GetDevice
      let node := IndexFillOp base.GetIrValue dim index.GetIrValue scalar
      { created := scalar :: node.created, outcome := node.outcome }
    else { created := [], outcome := Except.error Failure.check_failed }
  else { created := [], outcome := Except.error Failure.check_failed }

/-- `IndexFill` with a tensor value. -/
def IndexFillTensor (base : LazyTensor) (dim : Int) (index value : LazyTensor) :
    Built IrValue :=
  if index.dtype = ScalarType.Long then
    if index.shape.rank ≤ 1 then
      if value.shape.rank = 0 then
        IndexFillOp base.GetIrValue dim index.GetIrValue value.GetIrValue
      else { created := [], outcome := Except.error Failure.check_failed }
    else { created := [], outcome := Except.error Failure.check_failed }
  else { created := [], outcome := Except.error Failure.check_failed }

/-- `IndexAdd`. -/
def IndexAdd (base : LazyTensor) (dim : Int) (index source : LazyTensor) : Built IrValue :=
  if index.dtype = ScalarType.Long ∨ index.dtype = ScalarType.Int then
    if index.shape.rank ≤ 1 then
      IndexAddOp base.GetIrValue dim index.GetIrValue source.GetIrValue
    else { created := [], outcome := Except.error Failure.check_failed }
  else { created := [], outcome := Except.error Failure.check_failed }

/-- `IndexCopy`. -/
def IndexCopy (base : LazyTensor) (dim : Int) (index source : LazyTensor) : Built IrValue :=
  if index.dtype = ScalarType.Long then
    if index.shape.rank ≤ 1 then
      IndexCopyOp base.GetIrValue dim index.GetIrValue source.GetIrValue
    else { created := [], outcome := Except.error Failure.check_failed }
  else { created := [], outcome := Except.error Failure.check_failed }

/-- The call returned a node, and that node is among the nodes it constructed. -/
def Built.constructs (b : Built IrValue) : Prop :=
  ∃ node, b.outcome = Except.ok node ∧ node ∈ b.created

/-- The call failed and had constructed no node. -/
def Built.rejects (b : Built IrValue) : Prop :=
  (∃ e, b.outcome = Except.error e) ∧ b.created = []

/-- Whether an element kind is a floating-point kind. -/
def isFloatingType (t : ScalarType) : Bool :=
  t == ScalarType.Half || t == ScalarType.Float || t == ScalarType.Double

/-- Whether an element kind is an integer kind (`c10::isIntegralType` without bool). -/
def isIntegralType (t : ScalarType) : Bool :=
  t == ScalarType.Byte || t == ScalarType.Char || t == ScalarType.Short
    || t == ScalarType.Int || t == ScalarType.Long

/-! ## Indexing by tensors -/

/-- The nodes constructed for one wrapped index by the body of the loop of
`WrapIndicesOnce`, in the order of their construction. -/
def wrapIndexNodes (base dim_index : LazyTensor) (dim_size : Int) : List IrValue :=
  let scalar := GetIrValueForScalar dim_size dim_index.shape base.GetDevice
  let sum := IrValue.add dim_index.GetIrValue scalar
  let wrap_cond := IrValue.lt dim_index.GetIrValue 0
  [scalar, sum, wrap_cond, IrValue.where_ wrap_cond sum dim_index.GetIrValue]

/-- The nodes constructed by the loop of `WrapIndicesOnce` until it ends or a dimension
lookup fails. -/
def wrapLoopCreated (base : LazyTensor) (start_dim : Int) : List LazyTensor → Nat → List IrValue
  | [], _ => []
  | dim_index :: rest, dim_idx =>
    match base.shape.dimensions (dim_idx + start_dim) with
    | Except.error _ => []
    | Except.ok dim_size =>
      wrapIndexNodes base dim_index dim_size ++ wrapLoopCreated base start_dim rest (dim_idx + 1)

/-- The nodes constructed by a call of `WrapIndicesOnce`. -/
def WrapIndicesOnceCreated (base : LazyTensor) (indices : List LazyTensor) (start_dim : Int) :
    List IrValue :=
  if (indices.length : Int) ≤ base.shape.rank then wrapLoopCreated base start_dim indices 0
  else []

/-- Modelled from the spec: `lazy_tensor_aten_ops::stack(tensors, dim)` is not among
the sources; it "stacks the per-dimension index tensors into one combined index tensor
along a new trailing axis". -/
def lazy_stack (tensors : List LazyTensor) (dim : Int) : LazyTensor :=
  LazyTensor.Create (IrValue.stack (tensors.map LazyTensor.GetIrValue) dim)
    ((tensors.map LazyTensor.GetDevice).headD 0)

/-- Modelled from the spec: `LazyTensor::Create(ir_value, device, logical_element_type)`
is not among the sources; the tensor it makes has the given IR value, device and
element type. -/
def LazyTensor.CreateTyped (ir_value : IrValue) (device : Nat) (dtype : ScalarType) :
    LazyTensor :=
  { ir_value := ir_value, dtype := dtype, device := device }

/-- The conversion of an `int64_t` to `int`, as at the calls of `WrapIndicesOnce`,
whose `start_dim` parameter is an `int`: the value is reduced to 32 bits. -/
def narrowToInt (x : Int) : Int := (x + 2 ^ 31) % 2 ^ 32 - 2 ^ 31

/-- `IndexByTensors`, with the nodes it constructs.  The `int64_t start_dim` is handed
to `WrapIndicesOnce` as an `int` and to the `IndexGet` node as it is. -/
def IndexByTensors (base : LazyTensor) (indices : List LazyTensor) (start_dim : Int) :
    Built LazyTensor :=
  if indices.isEmpty then { created := [], outcome := Except.ok base }
  else
    match WrapIndicesOnce base indices (narrowToInt start_dim) with
    | Except.error e =>
      { created := WrapIndicesOnceCreated base indices (narrowToInt start_dim),
        outcome := Except.error e }
    | Except.ok [] =>
      { created := WrapIndicesOnceCreated base indices (narrowToInt start_dim),
        outcome := Except.error Failure.invalid_range }
    | Except.ok (front :: others) =>
      let canonical_indices := front :: others
      let indices_rank := front.shape.rank
      let indices_nd := lazy_stack canonical_indices indices_rank
      let node := IrValue.index_get base.GetIrValue indices_nd.GetIrValue start_dim
      { created := WrapIndicesOnceCreated base indices (narrowToInt start_dim)
          ++ [indices_nd.GetIrValue, node],
        outcome := Except.ok (LazyTensor.CreateTyped node base.GetDevice base.dtype) }

/-- `IndexPutByTensors`, with the nodes it constructs.  The `int64_t start_dim` is
handed to `WrapIndicesOnce` as an `int` and to the `IndexPut` node as it is. -/
def IndexPutByTensors (base : LazyTensor) (indices : List LazyTensor) (start_dim : Int)
    (values : LazyTensor) (accumulate : Bool) (result_permutation : List Int) :
    Built IrValue :=
  if indices.isEmpty then { created := [], outcome := Except.ok base.GetIrValue }
  else
    match WrapIndicesOnce base indices (narrowToInt start_dim) with
    | Except.error e =>
      { created := WrapIndicesOnceCreated base indices (narrowToInt start_dim),
        outcome := Except.error e }
    | Except.ok [] =>
      { created := WrapIndicesOnceCreated base indices (narrowToInt start_dim),
        outcome := Except.error Failure.invalid_range }
    | Except.ok (front :: others) =>
      let canonical_indices := front :: others
      let indices_rank := front.shape.rank
      let indices_nd := lazy_stack canonical_indices indices_rank
      let index_put := IrValue.index_put base.GetIrValue indices_nd.GetIrValue start_dim
        values.GetIrValue accumulate
      let node := IrValue.permute index_put result_permutation
      { created := WrapIndicesOnceCreated base indices (narrowToInt start_dim)
          ++ [indices_nd.GetIrValue, index_put, node],
        outcome := Except.ok node }

/-- Modelled from the spec: `bridge::GetLtcTensor` is not among the sources; the
resolver's "output feeds directly into node construction", so the lazy tensor of a
tensor has the tensor's element type, dimension sizes, elements and device. -/
def GetLtcTensor (t : Tensor) : LazyTensor :=
  { ir_value := IrValue.device_data (Shape.array t.scalar_type (t.sizes.map Int.ofNat))
      ((allCoords t.sizes).map t.elem),
    dtype := t.scalar_type, device := t.device }

/-! ## Shape equality -/

/-- The default constructor `Shape()`. -/
def Shape.empty : Shape := Shape.mk false ScalarType.Undefined [] []

/-- The constructor `Shape(element_shapes)` of a tuple shape: the list must not be
empty, and the element type is that of the first element shape. -/
def Shape.tuple (element_shapes : List Shape) : Except Failure Shape :=
  match element_shapes with
  | [] => Except.error Failure.check_failed
  | first :: _ => Except.ok (Shape.mk true first.at_element_type [] element_shapes)

/-- `Shape::operator==`: the element types and the dimensions are compared. -/
def Shape.operator_eq (self other : Shape) : Bool :=
  decide (self.at_element_type = other.at_element_type) && decide (self.dims = other.dims)

/-! ## The TS computation and node cloning -/

/-- Modelled from the spec: `torch::jit::Value` belongs to the JIT, which is not among
the sources; of a graph input the computation reads the debug name, its "parameter
name". -/
structure JitValue where
  debugName : String
  deriving DecidableEq, Repr

/-- Modelled from the spec: `torch::jit::Graph` belongs to the JIT, which is not among
the sources; of a graph the computation reads the inputs, its "parameters". -/
structure JitGraph where
  inputs : List JitValue
  outputs : List JitValue
  deriving DecidableEq, Repr

/-- The class `GenericComputationTS` with its four private fields, the graph executor
being represented by the graph it holds. -/
structure GenericComputationTS where
  graph_executor : JitGraph
  parameter_names : List String
  parameter_shapes_field : List Shape
  result_shape_field : Shape

/-- The constructor `GenericComputationTS(graph)`: the debug name of every graph input
is pushed to `parameter_names_`; the two shape fields are default-initialised. -/
def GenericComputationTS.create (graph : JitGraph) : GenericComputationTS :=
  { graph_executor := graph,
    parameter_names := graph.inputs.foldl (fun names input => names ++ [input.debugName]) [],
    parameter_shapes_field := [],
    result_shape_field := Shape.empty }

/-- `GenericComputationTS::parameters_size`.  The number of names stays far below the
range of the `int` it is returned in. -/
def GenericComputationTS.parameters_size (c : GenericComputationTS) : Int :=
  c.parameter_names.length

/-- `GenericComputationTS::parameter_shapes`: it throws before its `return`. -/
def GenericComputationTS.parameter_shapes (_c : GenericComputationTS) :
    Except Failure (List Shape) :=
  Except.error Failure.runtime_error

/-- `GenericComputationTS::result_shape`: it throws before its `return`. -/
def GenericComputationTS.result_shape (_c : GenericComputationTS) : Except Failure Shape :=
  Except.error Failure.runtime_error

/-- How a call of a value-returning function ends. -/
inductive Completion (α : Type) where
  /-- A `return` statement was reached. -/
  | returned (value : α)
  /-- An exception left the function. -/
  | threw (failure : Failure)
  /-- Control reached the closing brace without a `return`: the caller reads a value
  that nothing has set. -/
  | flowed_off_end

/-- What a call of `TsNode::Clone` leaves behind: the messages written through
`LOG(ERROR)` and the way the call ended. -/
structure CloneOutcome where
  logged_errors : List String
  completion : Completion IrValue

/-- The default `TsNode::Clone(operands)`: one message goes to `LOG(ERROR)`, and the
body ends there, without `throw` and without `return`. -/
def TsNode.Clone (_self : IrValue) (_operands : List IrValue) : CloneOutcome :=
  { logged_errors := ["Cloning not implemented for TsNode"],
    completion := Completion.flowed_off_end }

/-- The axis order as the documentation of `TransposeToFront` words it: positions of
the defined indices in increasing order, then positions of the null indices in
increasing order, then the axes past the end of the index list. -/
def documentedAxisOrder (base_rank : Nat) (indices : List Tensor) : List Nat :=
  (List.range indices.length).filter (fun i => definedAt indices i)
    ++ (List.range indices.length).filter (fun i => !definedAt indices i)
    ++ List.range' indices.length (base_rank - indices.length)

/-! ## Example inputs -/

/-- A contiguous float base of shape `[4, 5, 6]`. -/
def base456 : Tensor :=
  { defined := true, scalar_type := ScalarType.Float, axes := [(4, 30), (5, 6), (6, 1)],
    storage := List.replicate 120 0,
    offset := 0, device := 0 }

/-- A contiguous float base of shape `[2, 3, 4, 5]`. -/
def base2345 : Tensor :=
  { defined := true, scalar_type := ScalarType.Float,
    axes := [(2, 60), (3, 20), (4, 5), (5, 1)], storage := List.replicate 120 0,
    offset := 0, device := 0 }

/-- A rank-1 index tensor of 64-bit integers holding `[0, -1]`. -/
def idx_a : Tensor :=
  { defined := true, scalar_type := ScalarType.Long, axes := [(2, 1)], storage := [0, -1],
    offset := 0, device := 0 }

/-- A boolean mask of shape `[4, 5]` that is set at `(0, 1)`, `(2, 3)` and `(3, 0)`. -/
def mask45 : Tensor :=
  { defined := true, scalar_type := ScalarType.Bool, axes := [(4, 5), (5, 1)],
    storage := [0, 1, 0, 0, 0,  0, 0, 0, 0, 0,  0, 0, 0, 1, 0,  1, 0, 0, 0, 0],
    offset := 0, device := 0 }

/-- A boolean mask of shape `[6]` that is set at 2 and 5. -/
def mask6 : Tensor :=
  { defined := true, scalar_type := ScalarType.Bool, axes := [(6, 1)],
    storage := [0, 0, 1, 0, 0, 1], offset := 0, device := 0 }

/-- A rank-1 index tensor of 32-bit integers holding `[0, 1]`. -/
def idx_int32 : Tensor :=
  { defined := true, scalar_type := ScalarType.Int, axes := [(2, 1)], storage := [0, 1],
    offset := 0, device := 0 }

/-- A lazy float base of shape `[5, 7]`. -/
def lazyBase57 : LazyTensor :=
  { ir_value := IrValue.device_data (Shape.array ScalarType.Float [5, 7])
      (List.replicate 35 0),
    dtype := ScalarType.Float, device := 0 }

/-- A lazy 64-bit integer index tensor holding `[-1, 2]`. -/
def lazyIndex : LazyTensor :=
  { ir_value := IrValue.device_data (Shape.array ScalarType.Long [2]) [-1, 2],
    dtype := ScalarType.Long, device := 0 }

/-- A graph with the two inputs `p0` and `p1`. -/
def graphTwoInputs : JitGraph :=
  { inputs := [{ debugName := "p0" }, { debugName := "p1" }],
    outputs := [{ debugName := "out" }] }

/-- A rank-1 index tensor of 64-bit integers holding `[1, 2]`. -/
def idx_b : Tensor :=
  { defined := true, scalar_type := ScalarType.Long, axes := [(2, 1)], storage := [1, 2],
    offset := 0, device := 0 }

end LazyIndex

/-! # Theorems -/

namespace LazyIndex

/-! ## The loops of `TransposeToFront` as filters -/

theorem foldl_push_eq {α β : Type} (p : α → Bool) (f : α → β) (l : List α) (init : List β) :
    l.foldl (fun acc i => if p i then acc ++ [f i] else acc) init
      = init ++ (l.filter p).map f := by
  induction l generalizing init with
  | nil => simp
  | cons a l ih =>
    simp only [List.foldl_cons, List.filter_cons]
    by_cases h : p a = true
    · simp [h, ih]
    · simp [h, ih]

theorem foldl_push_pair_eq {α β γ : Type} (p : α → Bool) (f : α → β) (g : α → γ)
    (l : List α) (init : List β × List γ) :
    l.foldl (fun acc i => if p i then (acc.1 ++ [f i], acc.2 ++ [g i]) else acc) init
      = (init.1 ++ (l.filter p).map f, init.2 ++ (l.filter p).map g) := by
  induction l generalizing init with
  | nil => simp
  | cons a l ih =>
    simp only [List.foldl_cons, List.filter_cons]
    by_cases h : p a = true
    · simp [h, ih]
    · simp [h, ih]

theorem definedAt_cons_succ (t : Tensor) (ts : List Tensor) (i : Nat) :
    definedAt (t :: ts) (i + 1) = definedAt ts i := by
  simp [definedAt]

theorem definedAt_of_getElem? {indices : List Tensor} {i : Nat} {t : Tensor}
    (h : indices[i]? = some t) : definedAt indices i = t.defined := by
  simp [definedAt, List.getD_eq_getElem?_getD, h]

theorem definedAt_lt_length {indices : List Tensor} {i : Nat}
    (h : definedAt indices i = true) : i < indices.length := by
  by_contra hlt
  have : indices[i]? = none := List.getElem?_eq_none (Nat.le_of_not_lt hlt)
  simp [definedAt, List.getD_eq_getElem?_getD, this, Tensor.undefined] at h

theorem filter_range_map_getD (indices : List Tensor) :
    ((List.range indices.length).filter (definedAt indices)).map
        (fun i => indices.getD i Tensor.undefined)
      = indices.filter is_defined := by
  induction indices with
  | nil => simp
  | cons t ts ih =>
    rw [List.length_cons, List.range_succ_eq_map, List.filter_cons, List.filter_map,
      List.filter_cons]
    have hcomp : (definedAt (t :: ts) ∘ Nat.succ) = definedAt ts := by
      funext i; simp [Function.comp, definedAt]
    have h0 : definedAt (t :: ts) 0 = is_defined t := by simp [definedAt, is_defined]
    rw [hcomp, h0]
    have hmap : (List.map Nat.succ (List.filter (definedAt ts) (List.range ts.length))).map
        (fun i => (t :: ts).getD i Tensor.undefined) = ts.filter is_defined := by
      rw [List.map_map, ← ih]
      apply List.map_congr_left
      intro i _
      simp
    by_cases h : is_defined t = true
    · rw [if_pos h, if_pos h, List.map_cons, hmap]
      rfl
    · rw [if_neg h, if_neg h, hmap]

theorem pushDefined_eq (indices : List Tensor) :
    pushDefined indices
      = ((List.range indices.length).filter (definedAt indices), indices.filter is_defined) := by
  unfold pushDefined
  rw [foldl_push_pair_eq (definedAt indices) (fun i => i)
    (fun i => indices.getD i Tensor.undefined)]
  rw [filter_range_map_getD]
  simp

theorem pushNull_eq (indices : List Tensor) (dims : List Nat) :
    pushNull indices dims
      = dims ++ (List.range indices.length).filter (fun i => !definedAt indices i) := by
  unfold pushNull
  rw [foldl_push_eq (fun i => !definedAt indices i) (fun i => i)]
  simp

theorem pushTrailing_eq (first base_rank : Nat) (dims : List Nat) :
    pushTrailing first base_rank dims = dims ++ List.range' first (base_rank - first) := by
  unfold pushTrailing
  have := foldl_push_eq (fun _ => true) (fun i : Nat => i)
    (List.range' first (base_rank - first)) dims
  simpa using this

theorem transposeDims_eq (base_rank : Nat) (indices : List Tensor) :
    transposeDims base_rank indices
      = (List.range indices.length).filter (definedAt indices)
        ++ (List.range indices.length).filter (fun i => !definedAt indices i)
        ++ List.range' indices.length (base_rank - indices.length) := by
  unfold transposeDims
  rw [pushTrailing_eq, pushNull_eq, pushDefined_eq]

theorem transposeDims_perm (base_rank : Nat) (indices : List Tensor)
    (h : indices.length ≤ base_rank) :
    (transposeDims base_rank indices).Perm (List.range base_rank) := by
  rw [transposeDims_eq]
  have h1 := List.filter_append_perm (definedAt indices) (List.range indices.length)
  have h2 : List.range base_rank
      = List.range indices.length ++ List.range' indices.length (base_rank - indices.length) := by
    rw [List.range_eq_range', List.range_eq_range']
    have := List.range'_append 0 indices.length (base_rank - indices.length) 1
    simp only [Nat.zero_add, Nat.one_mul] at this
    rw [this]
    congr 1
    omega
  rw [h2]
  exact List.Perm.append_right _ h1

/-! ## `std::find_if` on a valid range -/

theorem find_if_step {α : Type} (pred : α → Bool) (xs : List α) (first last : Nat)
    (hne : first < last) (hlt : first < xs.length) :
    find_if pred xs first last
      = if pred (xs.get ⟨first, hlt⟩) then Except.ok first
        else find_if pred xs (first + 1) last := by
  unfold find_if
  rw [List.drop_eq_getElem_cons hlt, find_if_loop, if_neg (by omega)]
  rfl

/-- A search whose end does not lie after its start returns the end at once. -/
theorem find_if_not_after {α : Type} (pred : α → Bool) (xs : List α) (first last : Nat)
    (h : last ≤ first) : find_if pred xs first last = Except.ok last := by
  unfold find_if
  cases xs.drop first <;> simp [find_if_loop, h]

theorem find_if_done {α : Type} (pred : α → Bool) (xs : List α) (last : Nat) :
    find_if pred xs last last = Except.ok last :=
  find_if_not_after pred xs last last (le_refl _)

theorem find_if_valid {α : Type} (pred : α → Bool) (xs : List α) :
    ∀ (k first last : Nat), last - first = k → first ≤ last → last ≤ xs.length →
      ∃ r, find_if pred xs first last = Except.ok r ∧ first ≤ r ∧ r ≤ last ∧
        (∀ i x, first ≤ i → i < r → xs[i]? = some x → pred x = false) ∧
        (r < last → ∃ x, xs[r]? = some x ∧ pred x = true) := by
  intro k
  induction k with
  | zero =>
    intro first last hk hle _
    have heq : first = last := by omega
    refine ⟨last, ?_, by omega, le_refl _, ?_, ?_⟩
    · rw [heq, find_if_done]
    · intro i x h1 h2; omega
    · intro h; omega
  | succ k ih =>
    intro first last hk hle hlen
    have hne : first < last := by omega
    have hlt : first < xs.length := by omega
    rw [find_if_step pred xs first last hne hlt]
    by_cases hp : pred (xs.get ⟨first, hlt⟩) = true
    · rw [if_pos hp]
      refine ⟨first, rfl, le_refl _, hle, ?_, ?_⟩
      · intro i x h1 h2; omega
      · intro _
        exact ⟨xs.get ⟨first, hlt⟩, by simp [List.getElem?_eq_getElem hlt], hp⟩
    · rw [if_neg hp]
      obtain ⟨r, hr, h1, h2, h3, h4⟩ := ih (first + 1) last (by omega) (by omega) hlen
      refine ⟨r, hr, by omega, h2, ?_, h4⟩
      intro i x hi1 hi2 hix
      by_cases hif : i = first
      · subst hif
        rw [List.getElem?_eq_getElem hlt] at hix
        have : xs.get ⟨i, hlt⟩ = x := by simpa using hix
        rw [← this]
        simpa using hp
      · exact h3 i x (by omega) hi2 hix

/-- Scanning forwards for a defined index finds the first defined position. -/
theorem find_if_defined_first (indices : List Tensor) (f : Nat)
    (hf : definedAt indices f = true) (hmin : ∀ i, i < f → definedAt indices i = false) :
    find_if is_defined indices 0 indices.length = Except.ok f := by
  have hflt := definedAt_lt_length hf
  obtain ⟨r, hr, _, _, h3, h4⟩ :=
    find_if_valid is_defined indices (indices.length - 0) 0 indices.length rfl
      (Nat.zero_le _) (le_refl _)
  have hrf : r ≤ f := by
    by_contra hcon
    have hx := h3 f (indices.get ⟨f, hflt⟩) (Nat.zero_le _) (by omega)
      (by simp [List.getElem?_eq_getElem hflt])
    have hd := definedAt_of_getElem? (show indices[f]? = some (indices.get ⟨f, hflt⟩) by
      simp [List.getElem?_eq_getElem hflt])
    rw [hf] at hd
    simp only [is_defined] at hx
    rw [hx] at hd
    exact Bool.noConfusion hd
  obtain ⟨x, hx1, hx2⟩ := h4 (by omega)
  have hdr : definedAt indices r = true := by
    rw [definedAt_of_getElem? hx1]; exact hx2
  have : ¬ r < f := by
    intro hlt
    rw [hmin r hlt] at hdr
    exact Bool.noConfusion hdr
  have : r = f := by omega
  rw [hr, this]

/-- Scanning the reversed list for a defined index stops at the last defined position. -/
theorem find_if_defined_last (indices : List Tensor) (l : Nat)
    (hl : definedAt indices l = true) (hmax : ∀ i, l < i → definedAt indices i = false) :
    ∃ stop, find_if is_defined indices.reverse 0 indices.length = Except.ok stop ∧
      indices.length - stop = l + 1 := by
  have hllt := definedAt_lt_length hl
  have hdef : definedAt indices.reverse (indices.length - 1 - l) = true := by
    have h1 : indices.reverse[indices.length - 1 - l]? = some (indices.get ⟨l, hllt⟩) := by
      rw [List.getElem?_reverse (by omega)]
      have : indices.length - 1 - (indices.length - 1 - l) = l := by omega
      rw [this]
      simp [List.getElem?_eq_getElem hllt]
    rw [definedAt_of_getElem? h1]
    have h2 := definedAt_of_getElem? (show indices[l]? = some (indices.get ⟨l, hllt⟩) by
      simp [List.getElem?_eq_getElem hllt])
    rw [← h2, hl]
  have hmin : ∀ i, i < indices.length - 1 - l → definedAt indices.reverse i = false := by
    intro i hi
    have hilt : indices.length - 1 - i < indices.length := by omega
    have h1 : indices.reverse[i]? = some (indices.get ⟨indices.length - 1 - i, hilt⟩) := by
      rw [List.getElem?_reverse (by omega)]
      simp [List.getElem?_eq_getElem hilt]
    rw [definedAt_of_getElem? h1]
    have h2 := definedAt_of_getElem?
      (show indices[indices.length - 1 - i]? = some (indices.get ⟨indices.length - 1 - i, hilt⟩) by
        simp [List.getElem?_eq_getElem hilt])
    rw [← h2]
    exact hmax _ (by omega)
  have := find_if_defined_first indices.reverse (indices.length - 1 - l) hdef hmin
  rw [List.length_reverse] at this
  exact ⟨_, this, by omega⟩

/-- Characterisation of `GetIndexAdjacencyInfo` on a list whose first defined entry
is at `f` and whose last defined entry is at `l`. -/
theorem adjacency_of_first_last (indices : List Tensor) (f l : Nat)
    (hf : definedAt indices f = true) (hmin : ∀ i, i < f → definedAt indices i = false)
    (hl : definedAt indices l = true) (hmax : ∀ i, l < i → definedAt indices i = false) :
    ∃ info, GetIndexAdjacencyInfo indices = Except.ok info ∧ info.start_dim = f ∧
      (info.contiguous_non_null = true ↔
        ∀ i, f < i → i < l → definedAt indices i = true) := by
  have hllt := definedAt_lt_length hl
  have hfl : f ≤ l := by
    by_contra hcon
    rw [hmax f (by omega)] at hf
    exact Bool.noConfusion hf
  obtain ⟨stop, hstop, hbase⟩ := find_if_defined_last indices l hl hmax
  obtain ⟨r, hr, h1, h2, h3, h4⟩ :=
    find_if_valid is_null indices (l + 1 - f) f (l + 1) rfl (by omega) (by omega)
  refine ⟨{ contiguous_non_null := decide (r = l + 1), start_dim := f }, ?_, rfl, ?_⟩
  · unfold GetIndexAdjacencyInfo
    rw [find_if_defined_first indices f hf hmin, hstop]
    simp only [bind, Except.bind, hbase, hr]
    rfl
  · simp only [decide_eq_true_eq]
    constructor
    · intro hreq i hi1 hi2
      have hilt : i < indices.length := by omega
      have hx := h3 i (indices.get ⟨i, hilt⟩) (by omega) (by omega)
        (by simp [List.getElem?_eq_getElem hilt])
      have hd := definedAt_of_getElem? (show indices[i]? = some (indices.get ⟨i, hilt⟩) by
        simp [List.getElem?_eq_getElem hilt])
      rw [hd]
      simpa [is_null] using hx
    · intro hall
      by_contra hne
      obtain ⟨x, hx1, hx2⟩ := h4 (by omega)
      have hd := definedAt_of_getElem? hx1
      have hnull : definedAt indices r = false := by
        rw [hd]; simpa [is_null] using hx2
      have hrf : r ≠ f := by
        intro h; rw [h, hf] at hnull; exact Bool.noConfusion hnull
      have hrl : r ≠ l := by
        intro h; rw [h, hl] at hnull; exact Bool.noConfusion hnull
      rw [hall r (by omega) (by omega)] at hnull
      exact Bool.noConfusion hnull


theorem exists_first_last (indices : List Tensor)
    (h : ∃ i, definedAt indices i = true) :
    ∃ f l, definedAt indices f = true ∧ (∀ i, i < f → definedAt indices i = false) ∧
      definedAt indices l = true ∧ (∀ i, l < i → definedAt indices i = false) := by
  obtain ⟨i0, hi0⟩ := h
  have hex : ∃ i, definedAt indices i = true := ⟨i0, hi0⟩
  refine ⟨Nat.find hex, Nat.findGreatest (fun i => definedAt indices i = true) indices.length,
    Nat.find_spec hex, ?_, ?_, ?_⟩
  · intro i hi
    have := Nat.find_min hex hi
    simpa using this
  · exact Nat.findGreatest_spec (P := fun i => definedAt indices i = true)
      (Nat.le_of_lt (definedAt_lt_length hi0)) hi0
  · intro i hi
    by_contra hcon
    have hd : definedAt indices i = true := by simpa using hcon
    have hle := Nat.le_findGreatest (P := fun i => definedAt indices i = true)
      (Nat.le_of_lt (definedAt_lt_length hd)) hd
    omega

/-! ## The axis order is a permutation and `permute` accepts it -/

theorem transposeDims_length (base_rank : Nat) (indices : List Tensor)
    (h : indices.length ≤ base_rank) : (transposeDims base_rank indices).length = base_rank := by
  rw [(transposeDims_perm base_rank indices h).length_eq, List.length_range]

theorem transposeDims_lt (base_rank : Nat) (indices : List Tensor)
    (h : indices.length ≤ base_rank) : ∀ d ∈ transposeDims base_rank indices, d < base_rank := by
  intro d hd
  exact List.mem_range.mp (((transposeDims_perm base_rank indices h).mem_iff).mp hd)

theorem transposeDims_nodup (base_rank : Nat) (indices : List Tensor)
    (h : indices.length ≤ base_rank) : (transposeDims base_rank indices).Nodup :=
  ((transposeDims_perm base_rank indices h).nodup_iff).mpr (List.nodup_range base_rank)

theorem permute_transposeDims (base : Tensor) (indices : List Tensor)
    (h : indices.length ≤ base.dim) :
    base.permute (transposeDims base.dim indices)
      = Except.ok { base with axes := permuteList (transposeDims base.dim indices) base.axes } := by
  unfold Tensor.permute
  rw [if_pos ⟨transposeDims_length _ _ h, transposeDims_lt _ _ h, transposeDims_nodup _ _ h⟩]

/-- What `TransposeToFront` returns once the adjacency check has returned. -/
theorem TransposeToFront_of_adjacency (base : Tensor) (indices : List Tensor)
    (info : IndexAdjacencyInfo) (h : indices.length ≤ base.dim)
    (hinfo : GetIndexAdjacencyInfo indices = Except.ok info) :
    TransposeToFront base indices = Except.ok
      (if info.contiguous_non_null = true then
        { base := base, indices := indices.filter is_defined,
          result_permutation := List.range base.dim, start_dim := info.start_dim }
       else
        { base := { base with axes := permuteList (transposeDims base.dim indices) base.axes },
          indices := indices.filter is_defined,
          result_permutation := InversePermutation (transposeDims base.dim indices),
          start_dim := 0 }) := by
  unfold TransposeToFront
  simp only [if_pos h, hinfo, pushDefined_eq, Iota]
  by_cases hc : info.contiguous_non_null = true
  · rw [if_pos hc, if_pos hc]
  · rw [if_neg hc, if_neg hc, permute_transposeDims base indices h]

theorem adjacency_nil : GetIndexAdjacencyInfo [] = Except.ok ⟨true, 0⟩ := rfl

/-- Every result of `TransposeToFront` is one of the two records of its two returns. -/
theorem TransposeToFront_cases (base : Tensor) (indices : List Tensor)
    (r : CanonicalIndexInfo) (hr : TransposeToFront base indices = Except.ok r) :
    indices.length ≤ base.dim ∧ r.indices = indices.filter is_defined ∧
    ((r.base = base ∧ r.result_permutation = List.range base.dim) ∨
     (r.base = { base with axes := permuteList (transposeDims base.dim indices) base.axes } ∧
      r.result_permutation = InversePermutation (transposeDims base.dim indices) ∧
      r.start_dim = 0)) := by
  by_cases hlen : indices.length ≤ base.dim
  · cases hinfo : GetIndexAdjacencyInfo indices with
    | error e =>
      unfold TransposeToFront at hr
      simp [if_pos hlen, hinfo] at hr
    | ok info =>
      rw [TransposeToFront_of_adjacency base indices info hlen hinfo] at hr
      injection hr with hr
      subst hr
      by_cases hc : info.contiguous_non_null = true
      · simp [hc, hlen]
      · simp [hc, hlen]
  · unfold TransposeToFront at hr
    simp [if_neg hlen] at hr

/-- On a list without a defined entry `start` is the end of the list and `stop.base()`
its beginning, so the third `std::find_if` returns `stop.base()` at once: the list
counts as contiguous and `start_dim` is its length. -/
theorem adjacency_all_null (indices : List Tensor)
    (hnull : ∀ i, definedAt indices i = false) :
    GetIndexAdjacencyInfo indices
      = Except.ok { contiguous_non_null := true, start_dim := indices.length } := by
  have hscan : ∀ xs : List Tensor, (∀ i, definedAt xs i = false) →
      find_if is_defined xs 0 xs.length = Except.ok xs.length := by
    intro xs hxs
    obtain ⟨r, hr, _, hle, _, h4⟩ :=
      find_if_valid is_defined xs (xs.length - 0) 0 xs.length rfl (Nat.zero_le _) (le_refl _)
    by_cases hlt : r < xs.length
    · obtain ⟨x, hx1, hx2⟩ := h4 hlt
      have := definedAt_of_getElem? hx1
      rw [hxs r] at this
      simp only [is_defined] at hx2
      rw [hx2] at this
      exact Bool.noConfusion this
    · have : r = xs.length := by omega
      rw [hr, this]
  have hrev : ∀ i, definedAt indices.reverse i = false := by
    intro i
    by_contra hcon
    have hd : definedAt indices.reverse i = true := by simpa using hcon
    have hlt := definedAt_lt_length hd
    rw [List.length_reverse] at hlt
    have hilt : indices.length - 1 - i < indices.length := by omega
    have h1 : indices.reverse[i]? = some (indices.get ⟨indices.length - 1 - i, hilt⟩) := by
      rw [List.getElem?_reverse hlt]
      simp [List.getElem?_eq_getElem hilt]
    have h2 := definedAt_of_getElem?
      (show indices[indices.length - 1 - i]? = some (indices.get ⟨indices.length - 1 - i, hilt⟩) by
        simp [List.getElem?_eq_getElem hilt])
    rw [definedAt_of_getElem? h1, ← h2, hnull] at hd
    exact Bool.noConfusion hd
  have h2 := hscan indices.reverse hrev
  rw [List.length_reverse] at h2
  unfold GetIndexAdjacencyInfo
  rw [hscan indices hnull, h2]
  simp only [bind, Except.bind, Nat.sub_self]
  rw [find_if_not_after is_null indices indices.length 0 (Nat.zero_le _)]
  rfl

/-- The adjacency check returns on every index list. -/
theorem adjacency_returns (indices : List Tensor) :
    ∃ info, GetIndexAdjacencyInfo indices = Except.ok info := by
  by_cases h : ∃ i, definedAt indices i = true
  · obtain ⟨f, l, hf, hmin, hl, hmax⟩ := exists_first_last indices h
    obtain ⟨info, hinfo, _⟩ := adjacency_of_first_last indices f l hf hmin hl hmax
    exact ⟨info, hinfo⟩
  · refine ⟨_, adjacency_all_null indices ?_⟩
    intro i
    by_contra hcon
    exact h ⟨i, by simpa using hcon⟩

/-- `TransposeToFront` returns on every index list no longer than the base rank. -/
theorem TransposeToFront_returns (base : Tensor) (indices : List Tensor)
    (hlen : indices.length ≤ base.dim) :
    ∃ r, TransposeToFront base indices = Except.ok r := by
  obtain ⟨info, hinfo⟩ := adjacency_returns indices
  exact ⟨_, TransposeToFront_of_adjacency base indices info hlen hinfo⟩

/-! ## The inverse permutation undoes the transpose -/

theorem permuteList_length {α : Type} [Inhabited α] (order : List Nat) (xs : List α) :
    (permuteList order xs).length = order.length := by
  simp [permuteList]

theorem permuteList_range {α : Type} [Inhabited α] (xs : List α) :
    permuteList (List.range xs.length) xs = xs := by
  apply List.ext_getElem
  · simp [permuteList]
  · intro j h1 h2
    simp [permuteList, List.getD_eq_getElem?_getD, List.getElem?_eq_getElem h2]

theorem InversePermutation_length (p : List Nat) :
    (InversePermutation p).length = p.length := by
  simp [InversePermutation]

theorem InversePermutation_lt (p : List Nat) (n : Nat) (hp : p.Perm (List.range n)) :
    ∀ d ∈ InversePermutation p, d < n := by
  intro d hd
  simp only [InversePermutation, List.mem_map, List.mem_range] at hd
  obtain ⟨j, hj, rfl⟩ := hd
  have hmem : j ∈ p := (hp.mem_iff).mpr (List.mem_range.mpr (by
    rw [hp.length_eq, List.length_range] at hj; exact hj))
  have := List.indexOf_lt_length.mpr hmem
  rw [hp.length_eq, List.length_range] at this
  exact this

theorem InversePermutation_nodup (p : List Nat) (n : Nat) (hp : p.Perm (List.range n)) :
    (InversePermutation p).Nodup := by
  unfold InversePermutation
  apply List.Nodup.map_on _ (List.nodup_range _)
  intro x hx y hy hxy
  have hx2 : x ∈ p := (hp.mem_iff).mpr (by
    rw [hp.length_eq, List.length_range] at hx; exact hx)
  have hy2 : y ∈ p := (hp.mem_iff).mpr (by
    rw [hp.length_eq, List.length_range] at hy; exact hy)
  exact (List.indexOf_inj hx2 hy2).mp hxy

/-- Entry `dims[i]` of the inverse permutation is `i`. -/
theorem InversePermutation_at (p : List Nat) (n : Nat) (hp : p.Perm (List.range n))
    (i : Nat) (hi : i < n) :
    ∃ d, p[i]? = some d ∧ (InversePermutation p)[d]? = some i := by
  have hlen : p.length = n := by rw [hp.length_eq, List.length_range]
  have hip : i < p.length := by omega
  refine ⟨p[i], List.getElem?_eq_getElem hip, ?_⟩
  have hd : p[i] < n := List.mem_range.mp ((hp.mem_iff).mp (List.getElem_mem hip))
  have hnd : p.Nodup := (hp.nodup_iff).mpr (List.nodup_range n)
  unfold InversePermutation
  rw [List.getElem?_map, List.getElem?_range (by omega)]
  simp [List.indexOf_getElem hnd i hip]

/-- Reordering by an axis order and then by its inverse restores a per-axis list. -/
theorem permuteList_inverse {α : Type} [Inhabited α] (p : List Nat) (xs : List α)
    (hp : p.Perm (List.range xs.length)) :
    permuteList (InversePermutation p) (permuteList p xs) = xs := by
  have hlen : p.length = xs.length := by rw [hp.length_eq, List.length_range]
  apply List.ext_getElem
  · rw [permuteList_length, InversePermutation_length, hlen]
  · intro j h1 h2
    have hmem : j ∈ p := (hp.mem_iff).mpr (List.mem_range.mpr h2)
    have hk : List.indexOf j p < p.length := List.indexOf_lt_length.mpr hmem
    have hpk : p[List.indexOf j p] = j := List.getElem_indexOf hk
    simp only [permuteList, InversePermutation, List.getElem_map, List.getElem_range,
      List.map_map, Function.comp]
    rw [List.getD_eq_getElem?_getD, List.getElem?_map, List.getElem?_eq_getElem hk]
    simp only [Option.map_some', Option.getD_some, hpk]
    rw [List.getD_eq_getElem?_getD, List.getElem?_eq_getElem h2]
    rfl

theorem permute_range (base : Tensor) :
    base.permute (List.range base.dim) = Except.ok base := by
  unfold Tensor.permute
  rw [if_pos ⟨List.length_range _, fun d hd => List.mem_range.mp hd, List.nodup_range _⟩]
  have hlen : base.dim = base.axes.length := by simp [Tensor.dim, Tensor.sizes]
  rw [hlen, permuteList_range]

theorem permute_inverse (base : Tensor) (dims : List Nat)
    (hp : dims.Perm (List.range base.dim)) :
    Tensor.permute { base with axes := permuteList dims base.axes } (InversePermutation dims)
      = Except.ok base := by
  have hlen : dims.length = base.dim := by rw [hp.length_eq, List.length_range]
  have hax : base.dim = base.axes.length := by simp [Tensor.dim, Tensor.sizes]
  have hdim : Tensor.dim { base with axes := permuteList dims base.axes } = base.dim := by
    simp [Tensor.dim, Tensor.sizes, permuteList_length, hlen]
  unfold Tensor.permute
  rw [hdim, if_pos ⟨by rw [InversePermutation_length, hlen], InversePermutation_lt dims _ hp,
    InversePermutation_nodup dims _ hp⟩]
  simp only
  rw [permuteList_inverse dims base.axes (by rw [← hax]; exact hp)]

/-! ## Padding an index list with null entries -/

theorem definedAt_pad_left (before indices after : List Tensor)
    (hb : ∀ t ∈ before, t.defined = false) (i : Nat) (hi : i < before.length) :
    definedAt (before ++ indices ++ after) i = false := by
  have h1 : (before ++ indices ++ after)[i]? = some (before.get ⟨i, hi⟩) := by
    rw [List.append_assoc, List.getElem?_append_left hi]
    simp [List.getElem?_eq_getElem hi]
  rw [definedAt_of_getElem? h1]
  exact hb _ (List.get_mem _ _ _)

theorem definedAt_pad_right (before indices after : List Tensor)
    (ha : ∀ t ∈ after, t.defined = false) (i : Nat) :
    definedAt (before ++ indices ++ after) (before.length + i) = definedAt indices i := by
  by_cases hi : i < indices.length
  · have h1 : (before ++ indices ++ after)[before.length + i]? = some (indices.get ⟨i, hi⟩) := by
      rw [List.append_assoc, List.getElem?_append_right (by omega)]
      have : before.length + i - before.length = i := by omega
      rw [this, List.getElem?_append_left hi]
      simp [List.getElem?_eq_getElem hi]
    have h2 : indices[i]? = some (indices.get ⟨i, hi⟩) := by
      simp [List.getElem?_eq_getElem hi]
    rw [definedAt_of_getElem? h1, definedAt_of_getElem? h2]
  · have hfalse : definedAt indices i = false := by
      by_contra hcon
      exact hi (definedAt_lt_length (by simpa using hcon))
    rw [hfalse]
    by_contra hcon
    have hd : definedAt (before ++ indices ++ after) (before.length + i) = true := by
      simpa using hcon
    have hlt := definedAt_lt_length hd
    have hlt2 : before.length + i - before.length - indices.length < after.length := by
      simp only [List.length_append] at hlt
      omega
    have h1 : (before ++ indices ++ after)[before.length + i]?
        = some (after.get ⟨before.length + i - before.length - indices.length, hlt2⟩) := by
      rw [List.append_assoc, List.getElem?_append_right (by omega),
        List.getElem?_append_right (by omega)]
      simp [List.getElem?_eq_getElem hlt2]
    rw [definedAt_of_getElem? h1, ha _ (List.get_mem _ _ _)] at hd
    exact Bool.noConfusion hd

/-! ## Claims about `TransposeToFront` and `GetIndexAdjacencyInfo` -/

/-- C1: when the defined entries of an index list no longer than the base rank are
exactly the positions of one run `[a, b)`, `TransposeToFront` returns the base itself
(no permute), the defined indices, the identity permutation `[0, .., rank-1]` and
`start_dim = a`, the position of the first defined index. -/
theorem TransposeToFront_contiguous_run (base : Tensor) (indices : List Tensor) (a b : Nat)
    (hlen : indices.length ≤ base.dim) (hab : a < b)
    (hrun : ∀ i, definedAt indices i = true ↔ a ≤ i ∧ i < b) :
    TransposeToFront base indices = Except.ok
      { base := base, indices := indices.filter is_defined,
        result_permutation := List.range base.dim, start_dim := a } := by
  have hnot : ∀ i, ¬ (a ≤ i ∧ i < b) → definedAt indices i = false := by
    intro i hi
    by_contra hcon
    exact hi ((hrun i).mp (by simpa using hcon))
  obtain ⟨info, hinfo, hstart, hcont⟩ := adjacency_of_first_last indices a (b - 1)
    ((hrun a).mpr ⟨le_refl _, hab⟩) (fun i hi => hnot i (by omega))
    ((hrun (b - 1)).mpr ⟨by omega, by omega⟩) (fun i hi => hnot i (by omega))
  have hc : info.contiguous_non_null = true :=
    hcont.mpr (fun i h1 h2 => (hrun i).mpr ⟨by omega, by omega⟩)
  rw [TransposeToFront_of_adjacency base indices info hlen hinfo, if_pos hc, hstart]

/-- C1 at the spec's example: base rank 3 with `[absent, idx_a, absent]` gives
`start_dim = 1` and the permutation `[0, 1, 2]`. -/
theorem TransposeToFront_contiguous_run_witness :
    TransposeToFront base456 [Tensor.undefined, idx_a, Tensor.undefined] = Except.ok
      { base := base456, indices := [idx_a], result_permutation := [0, 1, 2],
        start_dim := 1 } :=
  TransposeToFront_contiguous_run base456 [Tensor.undefined, idx_a, Tensor.undefined] 1 2
    (by decide) (by decide)
    (by
      intro i
      rcases i with _ | _ | _ | i
      · decide
      · decide
      · decide
      · simp [definedAt, Tensor.undefined])

/-- C2: when a null entry at `j` lies between defined entries at `i` and `k` of an
index list no longer than the base rank, the axis order built by `TransposeToFront`
is the documented one (defined positions, then null positions, then the trailing
axes), the base is permuted by it, and `start_dim = 0`. -/
theorem TransposeToFront_interrupted (base : Tensor) (indices : List Tensor) (i j k : Nat)
    (hlen : indices.length ≤ base.dim) (hij : i < j) (hjk : j < k)
    (hi : definedAt indices i = true) (hj : definedAt indices j = false)
    (hk : definedAt indices k = true) :
    transposeDims base.dim indices = documentedAxisOrder base.dim indices ∧
    base.permute (documentedAxisOrder base.dim indices) = Except.ok
      { base with axes := permuteList (documentedAxisOrder base.dim indices) base.axes } ∧
    TransposeToFront base indices = Except.ok
      { base := { base with
                  axes := permuteList (documentedAxisOrder base.dim indices) base.axes },
        indices := indices.filter is_defined,
        result_permutation := InversePermutation (documentedAxisOrder base.dim indices),
        start_dim := 0 } := by
  have hdims : transposeDims base.dim indices = documentedAxisOrder base.dim indices :=
    transposeDims_eq base.dim indices
  obtain ⟨f, l, hf, hmin, hl, hmax⟩ := exists_first_last indices ⟨i, hi⟩
  obtain ⟨info, hinfo, _, hcont⟩ := adjacency_of_first_last indices f l hf hmin hl hmax
  have hfi : f ≤ i := by
    by_contra hcon
    rw [hmin i (by omega)] at hi
    exact Bool.noConfusion hi
  have hkl : k ≤ l := by
    by_contra hcon
    rw [hmax k (by omega)] at hk
    exact Bool.noConfusion hk
  have hc : ¬ info.contiguous_non_null = true := by
    intro h
    have := hcont.mp h j (by omega) (by omega)
    rw [hj] at this
    exact Bool.noConfusion this
  refine ⟨hdims, ?_, ?_⟩
  · rw [← hdims]; exact permute_transposeDims base indices hlen
  · rw [TransposeToFront_of_adjacency base indices info hlen hinfo, if_neg hc, hdims]

/-- C2 at the example of the source comment, `{null, a, null, b}` on a rank-4 base
giving `permute([1, 3, 0, 2])`, and at the spec's example `[idx_a, absent, idx_b]` on a
rank-3 base giving the axis order `[0, 2, 1]`. -/
theorem TransposeToFront_interrupted_witness :
    (transposeDims 4 [Tensor.undefined, idx_a, Tensor.undefined, idx_b] = [1, 3, 0, 2] ∧
     base2345.permute [1, 3, 0, 2] = Except.ok
       { base2345 with axes := [(3, 20), (5, 1), (2, 60), (4, 5)] } ∧
     TransposeToFront base2345 [Tensor.undefined, idx_a, Tensor.undefined, idx_b] = Except.ok
       { base := { base2345 with axes := [(3, 20), (5, 1), (2, 60), (4, 5)] },
         indices := [idx_a, idx_b], result_permutation := [2, 0, 3, 1], start_dim := 0 }) ∧
    (transposeDims 3 [idx_a, Tensor.undefined, idx_b] = [0, 2, 1] ∧
     base456.permute [0, 2, 1] = Except.ok
       { base456 with axes := [(4, 30), (6, 1), (5, 6)] } ∧
     TransposeToFront base456 [idx_a, Tensor.undefined, idx_b] = Except.ok
       { base := { base456 with axes := [(4, 30), (6, 1), (5, 6)] },
         indices := [idx_a, idx_b], result_permutation := [0, 2, 1], start_dim := 0 }) :=
  ⟨TransposeToFront_interrupted base2345 [Tensor.undefined, idx_a, Tensor.undefined, idx_b]
     1 2 3 (by decide) (by decide) (by decide) (by decide) (by decide) (by decide),
   TransposeToFront_interrupted base456 [idx_a, Tensor.undefined, idx_b]
     0 1 2 (by decide) (by decide) (by decide) (by decide) (by decide) (by decide)⟩

/-- C3: for every index list no longer than the base rank the axis order built by
`TransposeToFront` is a permutation of `0 .. rank-1`, the call returns, and permuting
the returned base by the returned permutation gives back the original base: in the
contiguous branch the base is returned as it is with the identity permutation, in the
other branch the base is permuted by `dims` and the returned permutation is the inverse
permutation of `dims`, with `returned_perm[dims[i]] = i` for every axis `i`. -/
theorem TransposeToFront_permutation_inverts (base : Tensor) (indices : List Tensor)
    (hlen : indices.length ≤ base.dim) :
    (transposeDims base.dim indices).Perm (List.range base.dim) ∧
    ∃ info r, GetIndexAdjacencyInfo indices = Except.ok info ∧
      TransposeToFront base indices = Except.ok r ∧
      r.base.permute r.result_permutation = Except.ok base ∧
      (info.contiguous_non_null = true →
        r.base = base ∧ r.result_permutation = List.range base.dim) ∧
      (info.contiguous_non_null = false →
        base.permute (transposeDims base.dim indices) = Except.ok r.base ∧
        r.result_permutation = InversePermutation (transposeDims base.dim indices) ∧
        ∀ i, i < base.dim →
          ∃ d, (transposeDims base.dim indices)[i]? = some d ∧
            r.result_permutation[d]? = some i) := by
  have hperm := transposeDims_perm base.dim indices hlen
  refine ⟨hperm, ?_⟩
  obtain ⟨info, hinfo⟩ := adjacency_returns indices
  have hr := TransposeToFront_of_adjacency base indices info hlen hinfo
  by_cases hc : info.contiguous_non_null = true
  · rw [if_pos hc] at hr
    refine ⟨info, _, hinfo, hr, permute_range base, fun _ => ⟨rfl, rfl⟩, ?_⟩
    intro hfalse
    rw [hc] at hfalse
    exact Bool.noConfusion hfalse
  · rw [if_neg hc] at hr
    refine ⟨info, _, hinfo, hr, permute_inverse base _ hperm, fun h => absurd h hc, ?_⟩
    intro _
    refine ⟨permute_transposeDims base indices hlen, rfl, ?_⟩
    intro i hi
    exact InversePermutation_at _ base.dim hperm i hi

/-- C3 at the spec's example `[idx_a, absent, idx_b]` on a rank-3 base and at the list
`[absent]` without a defined entry: the call returns, and permuting its base by its
permutation gives back the base. -/
theorem TransposeToFront_permutation_inverts_witness :
    (∃ r, TransposeToFront base456 [idx_a, Tensor.undefined, idx_b] = Except.ok r ∧
      r.base.permute r.result_permutation = Except.ok base456) ∧
    (∃ r, TransposeToFront base456 [Tensor.undefined] = Except.ok r ∧
      r.base.permute r.result_permutation = Except.ok base456) := by
  constructor
  · obtain ⟨_, r, _, hr, hround, _⟩ :=
      (TransposeToFront_permutation_inverts base456 [idx_a, Tensor.undefined, idx_b]
        (by decide)).2
    exact ⟨r, hr, hround⟩
  · obtain ⟨_, r, _, hr, hround, _⟩ :=
      (TransposeToFront_permutation_inverts base456 [Tensor.undefined] (by decide)).2
    exact ⟨r, hr, hround⟩

/-- C4: on an index list whose first defined entry is at `f` and whose last defined
entry is at `l`, `GetIndexAdjacencyInfo` returns `start_dim = f` and reports
`contiguous_non_null` exactly when every entry strictly between `f` and `l` is
defined.  The list is its only argument, and null entries put before and after the
list leave the flag as it is and shift `start_dim` by the number put before. -/
theorem GetIndexAdjacencyInfo_contiguous_iff (indices : List Tensor) (f l : Nat)
    (hf : definedAt indices f = true) (hmin : ∀ i, i < f → definedAt indices i = false)
    (hl : definedAt indices l = true) (hmax : ∀ i, l < i → definedAt indices i = false) :
    ∃ info, GetIndexAdjacencyInfo indices = Except.ok info ∧ info.start_dim = f ∧
      (info.contiguous_non_null = true ↔
        ∀ i, f < i → i < l → definedAt indices i = true) ∧
      ∀ before after : List Tensor,
        (∀ t ∈ before, t.defined = false) → (∀ t ∈ after, t.defined = false) →
        GetIndexAdjacencyInfo (before ++ indices ++ after) = Except.ok
          { contiguous_non_null := info.contiguous_non_null,
            start_dim := before.length + info.start_dim } := by
  obtain ⟨info, hinfo, hstart, hcont⟩ := adjacency_of_first_last indices f l hf hmin hl hmax
  refine ⟨info, hinfo, hstart, hcont, ?_⟩
  intro before after hb ha
  have hshift : ∀ i, definedAt (before ++ indices ++ after) i
      = if i < before.length then false else definedAt indices (i - before.length) := by
    intro i
    by_cases hi : i < before.length
    · rw [if_pos hi]; exact definedAt_pad_left before indices after hb i hi
    · rw [if_neg hi]
      have := definedAt_pad_right before indices after ha (i - before.length)
      rwa [show before.length + (i - before.length) = i by omega] at this
  obtain ⟨info2, hinfo2, hstart2, hcont2⟩ :=
    adjacency_of_first_last (before ++ indices ++ after) (before.length + f)
      (before.length + l)
      (by rw [definedAt_pad_right before indices after ha]; exact hf)
      (by
        intro i hi
        rw [hshift i]
        by_cases h : i < before.length
        · rw [if_pos h]
        · rw [if_neg h]; exact hmin _ (by omega))
      (by rw [definedAt_pad_right before indices after ha]; exact hl)
      (by
        intro i hi
        rw [hshift i, if_neg (by omega)]
        exact hmax _ (by omega))
  rw [hinfo2]
  have hflag : info2.contiguous_non_null = info.contiguous_non_null := by
    rw [Bool.eq_iff_iff, hcont2, hcont]
    constructor
    · intro h i h1 h2
      have := h (before.length + i) (by omega) (by omega)
      rwa [definedAt_pad_right before indices after ha] at this
    · intro h i h1 h2
      rw [hshift i, if_neg (by omega)]
      exact h _ (by omega) (by omega)
  cases info2
  simp only at hflag hstart2
  rw [hflag, hstart2, hstart]

/-- C4 on `[absent, idx_a, absent, idx_b]`: the first defined entry is at 1, the last
at 3. -/
theorem GetIndexAdjacencyInfo_contiguous_iff_witness :
    ∃ info, GetIndexAdjacencyInfo [Tensor.undefined, idx_a, Tensor.undefined, idx_b]
        = Except.ok info ∧ info.start_dim = 1 ∧
      (info.contiguous_non_null = true ↔
        ∀ i, 1 < i → i < 3 →
          definedAt [Tensor.undefined, idx_a, Tensor.undefined, idx_b] i = true) ∧
      ∀ before after : List Tensor,
        (∀ t ∈ before, t.defined = false) → (∀ t ∈ after, t.defined = false) →
        GetIndexAdjacencyInfo
            (before ++ [Tensor.undefined, idx_a, Tensor.undefined, idx_b] ++ after)
          = Except.ok { contiguous_non_null := info.contiguous_non_null,
                        start_dim := before.length + info.start_dim } :=
  GetIndexAdjacencyInfo_contiguous_iff [Tensor.undefined, idx_a, Tensor.undefined, idx_b] 1 3
    (by decide)
    (by intro i hi; interval_cases i; decide)
    (by decide)
    (by
      intro i hi
      rcases i with _ | _ | _ | _ | i
      · omega
      · omega
      · omega
      · omega
      · simp [definedAt, Tensor.undefined])

/-- C5: for every index list no longer than the base rank, the list
`transposed_indices` that `TransposeToFront` fills is the list of defined entries in
their original order, the call returns, and the returned index list is that list in
either branch: every entry of it is defined, it is a subsequence of the input, and
its length is the number of defined entries. -/
theorem TransposeToFront_indices_defined_subsequence (base : Tensor) (indices : List Tensor)
    (hlen : indices.length ≤ base.dim) :
    (pushDefined indices).2 = indices.filter is_defined ∧
    ∃ r, TransposeToFront base indices = Except.ok r ∧
      r.indices = indices.filter is_defined ∧
      (∀ t ∈ r.indices, t.defined = true) ∧
      r.indices.Sublist indices ∧
      r.indices.length = indices.countP is_defined := by
  refine ⟨by rw [pushDefined_eq], ?_⟩
  obtain ⟨r, hr⟩ := TransposeToFront_returns base indices hlen
  obtain ⟨_, hidx, _⟩ := TransposeToFront_cases base indices r hr
  refine ⟨r, hr, hidx, ?_, ?_, ?_⟩
  · intro t ht
    rw [hidx] at ht
    exact (List.mem_filter.mp ht).2
  · rw [hidx]; exact List.filter_sublist indices
  · rw [hidx, List.countP_eq_length_filter]

/-- C5 at `[idx_a, absent, idx_b]` on a rank-3 base, where the call returns the indices
`[idx_a, idx_b]`, and at `[absent, absent]`, where it returns no index. -/
theorem TransposeToFront_indices_defined_subsequence_witness :
    (∃ r, TransposeToFront base456 [idx_a, Tensor.undefined, idx_b] = Except.ok r ∧
      r.indices = [idx_a, idx_b]) ∧
    (∃ r, TransposeToFront base456 [Tensor.undefined, Tensor.undefined] = Except.ok r ∧
      r.indices = []) := by
  constructor
  · obtain ⟨r, hr, hidx, _⟩ := (TransposeToFront_indices_defined_subsequence base456
      [idx_a, Tensor.undefined, idx_b] (by decide)).2
    exact ⟨r, hr, by rw [hidx]; decide⟩
  · obtain ⟨r, hr, hidx, _⟩ := (TransposeToFront_indices_defined_subsequence base456
      [Tensor.undefined, Tensor.undefined] (by decide)).2
    exact ⟨r, hr, by rw [hidx]; decide⟩

/-! ## Mask expansion -/

theorem size_of_lt (t : Tensor) (j : Nat) (h : j < t.dim) :
    ∃ n, t.sizes[j]? = some n ∧ t.size j = Except.ok n := by
  have hj : j < t.sizes.length := h
  refine ⟨t.sizes[j], List.getElem?_eq_getElem hj, ?_⟩
  simp [Tensor.size, List.getElem?_eq_getElem hj]

theorem checkMaskSizes_ok_iff (self t : Tensor) (q : Nat) (js : List Nat)
    (hjs : ∀ j ∈ js, j < t.dim) :
    checkMaskSizes self t q js = Except.ok () ↔
      ∀ j ∈ js, self.sizes[q + j]? = t.sizes[j]? := by
  induction js with
  | nil => simp [checkMaskSizes]
  | cons j js ih =>
    obtain ⟨n, hn1, hn2⟩ := size_of_lt t j (hjs j (List.mem_cons_self _ _))
    have ih2 := ih (fun k hk => hjs k (List.mem_cons_of_mem _ hk))
    simp only [checkMaskSizes, hn2, bind, Except.bind, List.mem_cons, forall_eq_or_imp, hn1]
    cases hs : self.sizes[q + j]? with
    | none => simp [Tensor.size, hs]
    | some m =>
      simp only [Tensor.size, hs]
      by_cases hnm : n = m
      · subst hnm
        simp [ih2]
      · have : ¬ m = n := fun h => hnm h.symm
        simp [hnm, this]

theorem select_nonzero (t : Tensor) (j : Nat) (h : j < t.dim) :
    t.nonzero.select 1 j = Except.ok (nonzeroColumn t j) := by
  simp [Tensor.select, Tensor.nonzero, nonzeroColumn, h]

theorem emplaceColumns_eq (t : Tensor) (result : List Tensor) (js : List Nat)
    (hjs : ∀ j ∈ js, j < t.dim) :
    emplaceColumns t.nonzero result js = Except.ok (result ++ js.map (nonzeroColumn t)) := by
  induction js generalizing result with
  | nil => simp [emplaceColumns]
  | cons j js ih =>
    simp only [emplaceColumns, select_nonzero t j (hjs j (List.mem_cons_self _ _)), bind,
      Except.bind]
    rw [ih _ (fun k hk => hjs k (List.mem_cons_of_mem _ hk))]
    simp

theorem checkMaskSizes_range_iff (self t : Tensor) (q : Nat) :
    checkMaskSizes self t q (List.range t.dim) = Except.ok () ↔ maskFits self t q := by
  rw [checkMaskSizes_ok_iff self t q _ (fun j hj => List.mem_range.mp hj)]
  simp [maskFits, List.mem_range]

theorem emittedBefore_zero (indices : List (Option Tensor)) : emittedBefore indices 0 = 0 := by
  simp [emittedBefore]

theorem emittedBefore_succ (index : Option Tensor) (rest : List (Option Tensor)) (p : Nat) :
    emittedBefore (index :: rest) (p + 1) = (expansionOf index).length + emittedBefore rest p := by
  simp [emittedBefore, List.take_succ_cons, List.flatMap_cons]

/-- The loop of `ExpandByteTensors` returns exactly when every mask fits the base at
the number of tensors emitted before it, and then returns the expansion. -/
theorem expandLoop_spec (self : Tensor) (indices : List (Option Tensor)) :
    ∀ result : List Tensor,
      ((∀ p t, indices[p]? = some (some t) → isMask (some t) = true →
          maskFits self t (result.length + emittedBefore indices p)) →
        expandLoop self result indices = Except.ok (result ++ indices.flatMap expansionOf)) ∧
      (∀ out, expandLoop self result indices = Except.ok out →
        ∀ p t, indices[p]? = some (some t) → isMask (some t) = true →
          maskFits self t (result.length + emittedBefore indices p)) := by
  induction indices with
  | nil =>
    intro result
    refine ⟨fun _ => by simp [expandLoop], ?_⟩
    intro out _ p t hp
    simp at hp
  | cons index rest ih =>
    intro result
    have hshift : ∀ (extra : List Tensor), (expansionOf index).length = extra.length →
        ((∀ p t, rest[p]? = some (some t) → isMask (some t) = true →
            maskFits self t ((result ++ extra).length + emittedBefore rest p)) ↔
         (∀ p t, (index :: rest)[p + 1]? = some (some t) → isMask (some t) = true →
            maskFits self t (result.length + emittedBefore (index :: rest) (p + 1)))) := by
      intro extra hex
      constructor
      · intro h p t hp hm
        have := h p t (by simpa using hp) hm
        rw [emittedBefore_succ, hex]
        rw [List.length_append] at this
        rwa [← Nat.add_assoc]
      · intro h p t hp hm
        have := h p t (by simpa using hp) hm
        rw [emittedBefore_succ, hex, ← Nat.add_assoc] at this
        rwa [List.length_append]
    cases index with
    | none =>
      have hs := hshift [Tensor.undefined] (by simp [expansionOf])
      constructor
      · intro h
        simp only [expandLoop]
        rw [(ih _).1 (hs.mpr (fun p t hp hm => h (p + 1) t hp hm))]
        simp [List.flatMap_cons, expansionOf]
      · intro out hout p t hp hm
        simp only [expandLoop] at hout
        cases p with
        | zero => simp at hp
        | succ p => exact hs.mp ((ih _).2 out hout) p t hp hm
    | some t0 =>
      by_cases hmask : isMask (some t0) = true
      · have hcond : (t0.scalar_type == ScalarType.Byte || t0.scalar_type == ScalarType.Bool)
            = true := hmask
        have hexp : expansionOf (some t0) = (List.range t0.dim).map (nonzeroColumn t0) := by
          simp [expansionOf, hmask]
        have hs := hshift ((List.range t0.dim).map (nonzeroColumn t0)) (by rw [hexp])
        constructor
        · intro h
          have h0 : maskFits self t0 result.length := by
            have := h 0 t0 (by simp) hmask
            rwa [emittedBefore_zero, Nat.add_zero] at this
          simp only [expandLoop, hcond, if_true, bind, Except.bind,
            (checkMaskSizes_range_iff self t0 result.length).mpr h0,
            emplaceColumns_eq t0 result _ (fun j hj => List.mem_range.mp hj)]
          rw [(ih _).1 (hs.mpr (fun p t hp hm => h (p + 1) t hp hm))]
          simp [List.flatMap_cons, hexp]
        · intro out hout p t hp hm
          simp only [expandLoop, hcond, if_true, bind, Except.bind] at hout
          cases hchk : checkMaskSizes self t0 result.length (List.range t0.dim) with
          | error e => simp [hchk] at hout
          | ok u =>
            simp only [hchk, emplaceColumns_eq t0 result _ (fun j hj => List.mem_range.mp hj)]
              at hout
            cases p with
            | zero =>
              simp only [List.getElem?_cons_zero, Option.some.injEq] at hp
              subst hp
              rw [emittedBefore_zero, Nat.add_zero]
              exact (checkMaskSizes_range_iff self t0 result.length).mp hchk
            | succ p => exact hs.mp ((ih _).2 out hout) p t hp hm
      · have hcond : ¬ (t0.scalar_type == ScalarType.Byte || t0.scalar_type == ScalarType.Bool)
            = true := hmask
        have hexp : expansionOf (some t0) = [t0] := by
          simp only [expansionOf]
          rw [if_neg hmask]
        have hs := hshift [t0] (by rw [hexp])
        constructor
        · intro h
          simp only [expandLoop, hcond]
          rw [(ih _).1 (hs.mpr (fun p t hp hm => h (p + 1) t hp hm))]
          simp [List.flatMap_cons, hexp]
        · intro out hout p t hp hm
          simp only [expandLoop, hcond] at hout
          cases p with
          | zero =>
            simp only [List.getElem?_cons_zero, Option.some.injEq] at hp
            subst hp
            exact absurd hm hmask
          | succ p => exact hs.mp ((ih _).2 out hout) p t hp hm

theorem ExpandByteTensors_ok_iff (self : Tensor) (indices : List (Option Tensor)) :
    (∃ result, ExpandByteTensors self indices = Except.ok result) ↔
      ∀ p t, indices[p]? = some (some t) → isMask (some t) = true →
        maskFits self t (emittedBefore indices p) := by
  have h := expandLoop_spec self indices []
  simp only [List.length_nil, Nat.zero_add, List.nil_append] at h
  constructor
  · rintro ⟨result, hr⟩
    exact h.2 result hr
  · intro hfit
    exact ⟨_, h.1 hfit⟩

theorem ExpandByteTensors_eq (self : Tensor) (indices : List (Option Tensor))
    (result : List Tensor) (hr : ExpandByteTensors self indices = Except.ok result) :
    result = indices.flatMap expansionOf := by
  have h := expandLoop_spec self indices []
  simp only [List.length_nil, Nat.zero_add, List.nil_append] at h
  have h2 := h.1 (h.2 result hr)
  unfold ExpandByteTensors at hr
  rw [h2] at hr
  injection hr with hr
  exact hr.symm

theorem expansionOf_mask_length (t : Tensor) (h : isMask (some t) = true) :
    (expansionOf (some t)).length = t.dim := by
  simp [expansionOf, h]

theorem expansionOf_other (index : Option Tensor) (h : isMask index = false) :
    expansionOf index = [index.getD Tensor.undefined] := by
  cases index with
  | none => rfl
  | some t => simp [expansionOf, h]

/-- The expansion has one tensor per entry that is no mask plus the rank of each mask. -/
theorem length_flatMap_expansionOf (indices : List (Option Tensor)) :
    (indices.flatMap expansionOf).length
      = indices.countP (fun i => !isMask i) + ((indices.filter isMask).map entryRank).sum := by
  induction indices with
  | nil => rfl
  | cons index rest ih =>
    rw [List.flatMap_cons, List.length_append, ih]
    by_cases hm : isMask index = true
    · cases index with
      | none => simp [isMask] at hm
      | some t =>
        rw [expansionOf_mask_length t hm]
        simp [List.countP_cons, List.filter_cons, hm, entryRank]
        omega
    · have hm2 : isMask index = false := by simpa using hm
      rw [expansionOf_other index hm2]
      simp [List.countP_cons, List.filter_cons, hm2]
      omega

/-! ## The columns of the nonzero coordinates -/

theorem allCoords_length (sizes : List Nat) :
    ∀ c ∈ allCoords sizes, c.length = sizes.length := by
  induction sizes with
  | nil => intro c hc; simp [allCoords] at hc; simp [hc]
  | cons s rest ih =>
    intro c hc
    simp only [allCoords, List.mem_flatMap, List.mem_map, List.mem_range] at hc
    obtain ⟨i, _, c2, hc2, rfl⟩ := hc
    simp [ih c2 hc2]

theorem flatten_getD_uniform {α : Type} (r : Nat) (d : α) (rows : List (List α))
    (hrows : ∀ c ∈ rows, c.length = r) (j : Nat) (hj : j < r) :
    ∀ i, i < rows.length → rows.flatten.getD (j + i * r) d = (rows.getD i []).getD j d := by
  induction rows with
  | nil => intro i hi; simp at hi
  | cons c cs ih =>
    intro i hi
    have hc : c.length = r := hrows c (List.mem_cons_self _ _)
    rw [List.flatten_cons]
    cases i with
    | zero =>
      simp only [Nat.zero_mul, Nat.add_zero]
      rw [List.getD_append _ _ _ _ (by omega)]
      simp
    | succ i =>
      rw [List.getD_append_right _ _ _ _ (by rw [hc, Nat.succ_mul]; omega)]
      have hidx : j + (i + 1) * r - c.length = j + i * r := by
        rw [hc, Nat.succ_mul]; omega
      rw [hidx, ih (fun c2 hc2 => hrows c2 (List.mem_cons_of_mem _ hc2)) i
        (by simpa using hi)]
      simp

/-- Column `j` of the nonzero view holds coordinate `j` of every nonzero entry. -/
theorem nonzeroColumn_toList1d (t : Tensor) (j : Nat) (hj : j < t.dim) :
    (nonzeroColumn t j).toList1d = t.nonzeroCoords.map (fun c => Int.ofNat (c.getD j 0)) := by
  have hrows : ∀ c ∈ t.nonzeroCoords, c.length = t.dim := by
    intro c hc
    have := allCoords_length t.sizes c (List.mem_filter.mp hc).1
    rw [this]; rfl
  apply List.ext_getElem
  · simp [Tensor.toList1d, nonzeroColumn]
  · intro i h1 h2
    have hi : i < t.nonzeroCoords.length := by simpa using h2
    simp only [Tensor.toList1d, nonzeroColumn, Tensor.nonzero, List.getElem_map,
      List.getElem_range, Tensor.elem, storagePos]
    have hmap := List.getD_map (t.nonzeroCoords.flatten) (0 : Nat) (n := j + i * t.dim)
      (fun n => Int.ofNat n)
    have hflat := flatten_getD_uniform t.dim 0 t.nonzeroCoords hrows j hj i hi
    rw [hflat] at hmap
    rw [List.getD_eq_getElem _ _ hi] at hmap
    exact hmap

/-! ## Claims about `ExpandByteTensors` and `GetCanonicalIndexInfo` -/

/-- C6: whatever `ExpandByteTensors` returns is the index list with every byte or
boolean mask of rank `r` replaced, in place, by its `r` columns `nonzero.select(1, j)`
and every other entry passed through in order, so its length is the number of
entries that are no mask plus the sum of the ranks of the masks; column `j` of a mask
lists coordinate `j` of the mask's nonzero entries and is as long as their count; and
the call returns whenever every mask fits the base. -/
theorem ExpandByteTensors_replaces_masks (self : Tensor) (indices : List (Option Tensor)) :
    (∀ result, ExpandByteTensors self indices = Except.ok result →
      result = indices.flatMap expansionOf ∧
      result.length = indices.countP (fun i => !isMask i)
        + ((indices.filter isMask).map entryRank).sum) ∧
    ((∀ p t, indices[p]? = some (some t) → isMask (some t) = true →
        maskFits self t (emittedBefore indices p)) →
      ∃ result, ExpandByteTensors self indices = Except.ok result) ∧
    (∀ index, isMask index = false → expansionOf index = [index.getD Tensor.undefined]) ∧
    (∀ t, isMask (some t) = true →
      (expansionOf (some t)).length = t.dim ∧
      ∀ j, j < t.dim →
        ∃ col, (expansionOf (some t))[j]? = some col ∧
          t.nonzero.select 1 j = Except.ok col ∧
          col.toList1d = t.nonzeroCoords.map (fun c => Int.ofNat (c.getD j 0)) ∧
          col.toList1d.length = t.nonzeroCoords.length) := by
  refine ⟨?_, (ExpandByteTensors_ok_iff self indices).mpr, expansionOf_other, ?_⟩
  · intro result hr
    have := ExpandByteTensors_eq self indices result hr
    exact ⟨this, by rw [this, length_flatMap_expansionOf]⟩
  · intro t ht
    refine ⟨expansionOf_mask_length t ht, ?_⟩
    intro j hj
    refine ⟨nonzeroColumn t j, ?_, select_nonzero t j hj, nonzeroColumn_toList1d t j hj, ?_⟩
    · simp [expansionOf, ht, List.getElem?_map, List.getElem?_range hj]
    · rw [nonzeroColumn_toList1d t j hj, List.length_map]

/-- C6 at the spec's example: a rank-2 mask at position 0 over a base of shape
`[4, 5, 6]` expands into exactly 2 index tensors, the row and the column coordinates
of its 3 nonzero entries. -/
theorem ExpandByteTensors_replaces_masks_witness :
    ExpandByteTensors base456 [some mask45] = Except.ok ([some mask45].flatMap expansionOf) ∧
    ([some mask45].flatMap expansionOf).length = 2 ∧
    ([some mask45].flatMap expansionOf).map Tensor.toList1d = [[0, 2, 3], [1, 3, 0]] :=
  ⟨by
    rw [← ((ExpandByteTensors_replaces_masks base456 [some mask45]).1
      [nonzeroColumn mask45 0, nonzeroColumn mask45 1] (by decide)).1]
    decide,
   by decide, by decide⟩

/-- C7 fails as stated: in `[mask45, mask6]` over a base of shape `[4, 5, 6]` the mask
`mask6` stands at position 1 of the list, its size 6 differs from the base's size 5
in dimension 1, and the expansion is returned all the same. -/
theorem ExpandByteTensors_list_position_counterexample :
    [some mask45, some mask6][1]? = some (some mask6) ∧
    isMask (some mask6) = true ∧
    mask6.size 0 = Except.ok 6 ∧
    base456.size (1 + 0) = Except.ok 5 ∧
    ExpandByteTensors base456 [some mask45, some mask6] = Except.ok
      [nonzeroColumn mask45 0, nonzeroColumn mask45 1, nonzeroColumn mask6 0] := by
  decide

/-- C7, amended: `ExpandByteTensors` returns exactly when every mask of rank `r` has,
in each dimension `j < r`, the size of the base in dimension `q + j`, where `q` is the
number of tensors already emitted for the entries before the mask (one for each entry
that is no mask, `r'` for each mask of rank `r'`); otherwise it fails and returns no
expansion. -/
theorem ExpandByteTensors_accepts_iff (self : Tensor) (indices : List (Option Tensor)) :
    ((∃ result, ExpandByteTensors self indices = Except.ok result) ↔
      ∀ p t, indices[p]? = some (some t) → isMask (some t) = true →
        ∀ j, j < t.dim → self.sizes[emittedBefore indices p + j]? = t.sizes[j]?) ∧
    ((¬ ∀ p t, indices[p]? = some (some t) → isMask (some t) = true →
        ∀ j, j < t.dim → self.sizes[emittedBefore indices p + j]? = t.sizes[j]?) →
      ∃ e, ExpandByteTensors self indices = Except.error e) ∧
    (∀ p, emittedBefore indices p
      = (indices.take p).countP (fun i => !isMask i)
        + (((indices.take p).filter isMask).map entryRank).sum) := by
  have hiff := ExpandByteTensors_ok_iff self indices
  refine ⟨hiff, ?_, fun p => length_flatMap_expansionOf _⟩
  intro hnot
  cases hres : ExpandByteTensors self indices with
  | error e => exact ⟨e, rfl⟩
  | ok result => exact absurd (hiff.mp ⟨result, hres⟩) hnot

/-- C8, the code at an index list holding a 32-bit integer index: the scalar type is
logged and the resolver still returns canonical index info. -/
theorem GetCanonicalIndexInfo_int32_index :
    GetCanonicalIndexInfo base456 [some idx_int32] =
      { logged_errors := [ScalarType.Int],
        result := Except.ok { base := base456, indices := [idx_int32],
                              result_permutation := [0, 1, 2], start_dim := 0 } } := by
  decide


/-! ## Wrapping negative indices -/

theorem wrap64_of_range (x : Int) (h1 : -2 ^ 63 ≤ x) (h2 : x < 2 ^ 63) : wrap64 x = x := by
  unfold wrap64
  rw [Int.emod_eq_of_lt (by omega) (by omega)]
  omega

theorem wrapLoop_spec (base : LazyTensor) (start_dim : Int) (indices : List LazyTensor) :
    ∀ k0 : Nat, 0 ≤ (k0 : Int) + start_dim →
      (k0 : Int) + indices.length + start_dim ≤ base.shape.rank →
      ∃ out, wrapLoop base start_dim indices k0 = Except.ok out ∧
        out.length = indices.length ∧
        ∀ k idx, indices[k]? = some idx →
          ∃ d, base.shape.dimensions (((k0 + k : Nat) : Int) + start_dim) = Except.ok d ∧
            out[k]? = some (wrapIndex base idx d) := by
  induction indices with
  | nil =>
    intro k0 _ _
    exact ⟨[], rfl, rfl, by intro k idx h; simp at h⟩
  | cons idx0 rest ih =>
    intro k0 h0 hfit
    simp only [List.length_cons, Nat.cast_add, Nat.cast_one] at hfit
    obtain ⟨out, hout, hlen, hall⟩ := ih (k0 + 1)
      (by push_cast; omega) (by push_cast; omega)
    have hrank : base.shape.rank = (base.shape.dims.length : Int) := rfl
    have hdim : base.shape.dimensions ((k0 : Int) + start_dim)
        = Except.ok (base.shape.dims.getD ((k0 : Int) + start_dim).toNat 0) := by
      unfold Shape.dimensions
      rw [if_pos ⟨h0, by omega⟩]
    refine ⟨wrapIndex base idx0 (base.shape.dims.getD ((k0 : Int) + start_dim).toNat 0) :: out,
      ?_, by simp [hlen], ?_⟩
    · simp only [wrapLoop, hdim, hout, bind, Except.bind, pure, Except.pure]
    · intro k idx hk
      cases k with
      | zero =>
        simp only [List.getElem?_cons_zero, Option.some.injEq] at hk
        subst hk
        exact ⟨_, by simpa using hdim, by simp⟩
      | succ k =>
        obtain ⟨d, hd1, hd2⟩ := hall k idx (by simpa using hk)
        refine ⟨d, ?_, by simpa using hd2⟩
        have : ((k0 + (k + 1) : Nat) : Int) = ((k0 + 1 + k : Nat) : Int) := by
          push_cast; omega
        rw [this]; exact hd1

theorem wrap_select_eq (d : Int) (hd0 : 0 ≤ d) (hd1 : d < 2 ^ 63) :
    ∀ (vs : List Int) (n : Nat), vs.length ≤ n → (∀ v ∈ vs, -2 ^ 63 ≤ v ∧ v < 2 ^ 63) →
      List.zipWith (fun (c : Int) (xy : Int × Int) => if c ≠ 0 then xy.1 else xy.2)
          (vs.map (fun x => if x < 0 then (1 : Int) else 0))
          (List.zip (List.zipWith (fun x y => wrap64 (x + y)) vs (List.replicate n d)) vs)
        = vs.map (wrapValue d) := by
  intro vs
  induction vs with
  | nil => intro n _ _; simp
  | cons v vs ih =>
    intro n hn hrange
    cases n with
    | zero => simp at hn
    | succ n =>
      have hv := hrange v (List.mem_cons_self _ _)
      have ih2 := ih n (by simpa using hn) (fun w hw => hrange w (List.mem_cons_of_mem _ hw))
      simp only [List.replicate_succ, List.map_cons, List.zipWith_cons_cons, List.zip_cons_cons,
        ih2, List.cons.injEq, and_true]
      unfold wrapValue
      by_cases hneg : v < 0
      · simp only [hneg, if_true]
        rw [wrap64_of_range (v + d) (by omega) (by omega)]
        simp
      · simp [hneg]

theorem wrapIndex_eval (base idx : LazyTensor) (d : Int) (vs : List Int)
    (hvs : idx.ir_value.eval = some vs) (hlen : vs.length = idx.shape.numel)
    (hrange : ∀ v ∈ vs, -2 ^ 63 ≤ v ∧ v < 2 ^ 63) (hd0 : 0 ≤ d) (hd1 : d < 2 ^ 63) :
    (wrapIndex base idx d).ir_value.eval = some (vs.map (wrapValue d)) := by
  simp only [wrapIndex, lazy_where, lazy_lt, LazyTensor.Create, LazyTensor.GetIrValue,
    GetIrValueForScalar, IrValue.eval, hvs]
  rw [wrap_select_eq d hd0 hd1 vs idx.shape.numel (by omega) hrange]

/-- C9: when the indexed dimensions `start_dim, .., start_dim + n - 1` exist in the
base, `WrapIndicesOnce` returns one tensor per input index, in order, the `k`-th being
`where(index < 0, index + d, index)` for `d` the size of base dimension
`k + start_dim`; on 64-bit index values that tensor holds `v + d` where `v < 0` and
`v` where `v >= 0`, so every `v` with `-d <= v < d` lands in `[0, d)`: `-1` against
size 5 gives 4 and 2 stays 2. -/
theorem WrapIndicesOnce_wraps (base : LazyTensor) (indices : List LazyTensor) (start_dim : Int)
    (h0 : 0 ≤ start_dim) (hfit : start_dim + indices.length ≤ base.shape.rank) :
    (∃ out, WrapIndicesOnce base indices start_dim = Except.ok out ∧
      out.length = indices.length ∧
      ∀ (k : Nat) (idx : LazyTensor), indices[k]? = some idx →
        ∃ d, base.shape.dimensions ((k : Int) + start_dim) = Except.ok d ∧
          out[k]? = some (wrapIndex base idx d)) ∧
    (∀ idx d vs, idx.ir_value.eval = some vs → vs.length = idx.shape.numel →
      (∀ v ∈ vs, -2 ^ 63 ≤ v ∧ v < 2 ^ 63) → 0 ≤ d → d < 2 ^ 63 →
      (wrapIndex base idx d).ir_value = IrValue.where_ (IrValue.lt idx.ir_value 0)
        (IrValue.add idx.ir_value (IrValue.scalar d idx.shape)) idx.ir_value ∧
      (wrapIndex base idx d).ir_value.eval = some (vs.map (wrapValue d))) ∧
    (∀ d v, (v < 0 → wrapValue d v = v + d) ∧ (0 ≤ v → wrapValue d v = v) ∧
      (-d ≤ v → v < d → 0 ≤ wrapValue d v ∧ wrapValue d v < d)) ∧
    wrapValue 5 (-1) = 4 ∧ wrapValue 5 2 = 2 := by
  refine ⟨?_, ?_, ?_, by decide, by decide⟩
  · obtain ⟨out, hout, hlen, hall⟩ := wrapLoop_spec base start_dim indices 0
      (by simpa using h0) (by push_cast; omega)
    refine ⟨out, ?_, hlen, ?_⟩
    · unfold WrapIndicesOnce
      rw [if_pos (by omega)]
      exact hout
    · intro k idx hk
      obtain ⟨d, hd1, hd2⟩ := hall k idx hk
      exact ⟨d, by simpa using hd1, hd2⟩
  · intro idx d vs hvs hlen hrange hd0 hd1
    exact ⟨rfl, wrapIndex_eval base idx d vs hvs hlen hrange hd0 hd1⟩
  · intro d v
    unfold wrapValue
    refine ⟨fun h => by simp [h], fun h => by simp [Int.not_lt.mpr h], fun h1 h2 => ?_⟩
    by_cases hneg : v < 0
    · simp only [hneg, if_true]; omega
    · simp only [hneg, if_false]; omega

/-- C9 on a base of shape `[5, 7]` and the index `[-1, 2]` at `start_dim = 0`. -/
theorem WrapIndicesOnce_wraps_witness :
    ∃ out, WrapIndicesOnce lazyBase57 [lazyIndex] 0 = Except.ok out ∧ out.length = 1 ∧
      out[0]? = some (wrapIndex lazyBase57 lazyIndex 5) ∧
      (wrapIndex lazyBase57 lazyIndex 5).ir_value.eval = some [4, 2] := by
  have h := WrapIndicesOnce_wraps lazyBase57 [lazyIndex] 0 (by decide) (by decide)
  obtain ⟨out, hout, hlen, hall⟩ := h.1
  obtain ⟨d, hd1, hd2⟩ := hall 0 lazyIndex rfl
  have hd : d = 5 := by
    have h5 : lazyBase57.shape.dimensions ((0 : Nat) + (0 : Int)) = Except.ok 5 := by decide
    rw [h5] at hd1
    injection hd1 with hd1
    exact hd1.symm
  subst hd
  refine ⟨out, hout, hlen, hd2, ?_⟩
  exact (h.2.1 lazyIndex 5 [-1, 2] rfl rfl (by decide) (by decide) (by decide)).2

/-! ## Fill, add and copy along a dimension -/

theorem indexAlongDimOp_constructs (op : OpKind) (buffer : IrValue) (dim : Int)
    (index value : IrValue) (h : (GetShapeFromTsValue index).rank ≤ 1) :
    (indexAlongDimOp op buffer dim index value).constructs := by
  unfold Built.constructs indexAlongDimOp EnsureRank1
  rw [if_pos h]
  by_cases h0 : (GetShapeFromTsValue index).rank = 0
  · rw [if_pos h0]
    exact ⟨_, rfl, by simp⟩
  · rw [if_neg h0]
    exact ⟨_, rfl, by simp⟩

theorem not_constructs_of_rejects (b : Built IrValue) (h : b.rejects) : ¬ b.constructs := by
  rintro ⟨node, _, hmem⟩
  rw [h.2] at hmem
  simp at hmem

theorem rejected : Built.rejects
    { created := [], outcome := Except.error Failure.check_failed } :=
  ⟨⟨_, rfl⟩, rfl⟩

theorem IndexFillScalar_cases (base : LazyTensor) (dim : Int) (index : LazyTensor) (value : Int) :
    (index.dtype = ScalarType.Long ∧ index.shape.rank ≤ 1 →
      (IndexFillScalar base dim index value).constructs) ∧
    (¬ (index.dtype = ScalarType.Long ∧ index.shape.rank ≤ 1) →
      (IndexFillScalar base dim index value).rejects) := by
  constructor
  · rintro ⟨h1, h2⟩
    unfold IndexFillScalar
    rw [if_pos h1, if_pos h2]
    obtain ⟨node, hn1, hn2⟩ := indexAlongDimOp_constructs OpKind.index_fill base.GetIrValue dim
      index.GetIrValue
      (GetIrValueForScalar value (Shape.array base.shape.at_element_type []) base.GetDevice) h2
    exact ⟨node, hn1, List.mem_cons_of_mem _ hn2⟩
  · intro h
    unfold IndexFillScalar
    by_cases h1 : index.dtype = ScalarType.Long
    · rw [if_pos h1, if_neg (fun h2 => h ⟨h1, h2⟩)]; exact rejected
    · rw [if_neg h1]; exact rejected

theorem IndexFillTensor_cases (base : LazyTensor) (dim : Int) (index value : LazyTensor) :
    (index.dtype = ScalarType.Long ∧ index.shape.rank ≤ 1 ∧ value.shape.rank = 0 →
      (IndexFillTensor base dim index value).constructs) ∧
    (¬ (index.dtype = ScalarType.Long ∧ index.shape.rank ≤ 1 ∧ value.shape.rank = 0) →
      (IndexFillTensor base dim index value).rejects) := by
  constructor
  · rintro ⟨h1, h2, h3⟩
    unfold IndexFillTensor
    rw [if_pos h1, if_pos h2, if_pos h3]
    exact indexAlongDimOp_constructs _ _ _ _ _ h2
  · intro h
    unfold IndexFillTensor
    by_cases h1 : index.dtype = ScalarType.Long
    · rw [if_pos h1]
      by_cases h2 : index.shape.rank ≤ 1
      · rw [if_pos h2, if_neg (fun h3 => h ⟨h1, h2, h3⟩)]; exact rejected
      · rw [if_neg h2]; exact rejected
    · rw [if_neg h1]; exact rejected

theorem IndexAdd_cases (base : LazyTensor) (dim : Int) (index source : LazyTensor) :
    ((index.dtype = ScalarType.Long ∨ index.dtype = ScalarType.Int) ∧ index.shape.rank ≤ 1 →
      (IndexAdd base dim index source).constructs) ∧
    (¬ ((index.dtype = ScalarType.Long ∨ index.dtype = ScalarType.Int) ∧ index.shape.rank ≤ 1) →
      (IndexAdd base dim index source).rejects) := by
  constructor
  · rintro ⟨h1, h2⟩
    unfold IndexAdd
    rw [if_pos h1, if_pos h2]
    exact indexAlongDimOp_constructs _ _ _ _ _ h2
  · intro h
    unfold IndexAdd
    by_cases h1 : index.dtype = ScalarType.Long ∨ index.dtype = ScalarType.Int
    · rw [if_pos h1, if_neg (fun h2 => h ⟨h1, h2⟩)]; exact rejected
    · rw [if_neg h1]; exact rejected

theorem IndexCopy_cases (base : LazyTensor) (dim : Int) (index source : LazyTensor) :
    (index.dtype = ScalarType.Long ∧ index.shape.rank ≤ 1 →
      (IndexCopy base dim index source).constructs) ∧
    (¬ (index.dtype = ScalarType.Long ∧ index.shape.rank ≤ 1) →
      (IndexCopy base dim index source).rejects) := by
  constructor
  · rintro ⟨h1, h2⟩
    unfold IndexCopy
    rw [if_pos h1, if_pos h2]
    exact indexAlongDimOp_constructs _ _ _ _ _ h2
  · intro h
    unfold IndexCopy
    by_cases h1 : index.dtype = ScalarType.Long
    · rw [if_pos h1, if_neg (fun h2 => h ⟨h1, h2⟩)]; exact rejected
    · rw [if_neg h1]; exact rejected

/-- C10: `IndexFill` (with a scalar and with a tensor value), `IndexAdd` and
`IndexCopy` return a node, one they constructed, exactly when their checks pass: a
64-bit integer index of rank at most 1 for fill and copy (and a rank-0 value for the
tensor-valued fill), a 64- or 32-bit integer index of rank at most 1 for add.  In every
other case they fail having constructed no node; in particular an index of rank 2 or
more and a floating-point index are rejected by all four. -/
theorem index_along_dim_rejects_before_constructing (base : LazyTensor) (dim : Int)
    (index value source : LazyTensor) (scalar_value : Int) :
    ((IndexFillScalar base dim index scalar_value).constructs ↔
      index.dtype = ScalarType.Long ∧ index.shape.rank ≤ 1) ∧
    ((IndexFillTensor base dim index value).constructs ↔
      index.dtype = ScalarType.Long ∧ index.shape.rank ≤ 1 ∧ value.shape.rank = 0) ∧
    ((IndexAdd base dim index source).constructs ↔
      (index.dtype = ScalarType.Long ∨ index.dtype = ScalarType.Int) ∧
        index.shape.rank ≤ 1) ∧
    ((IndexCopy base dim index source).constructs ↔
      index.dtype = ScalarType.Long ∧ index.shape.rank ≤ 1) ∧
    ((IndexFillScalar base dim index scalar_value).constructs ∨
      (IndexFillScalar base dim index scalar_value).rejects) ∧
    ((IndexFillTensor base dim index value).constructs ∨
      (IndexFillTensor base dim index value).rejects) ∧
    ((IndexAdd base dim index source).constructs ∨
      (IndexAdd base dim index source).rejects) ∧
    ((IndexCopy base dim index source).constructs ∨
      (IndexCopy base dim index source).rejects) ∧
    (2 ≤ index.shape.rank ∨ isFloatingType index.dtype = true →
      (IndexFillScalar base dim index scalar_value).rejects ∧
      (IndexFillTensor base dim index value).rejects ∧
      (IndexAdd base dim index source).rejects ∧
      (IndexCopy base dim index source).rejects) ∧
    ((IndexAdd base dim index source).constructs → isIntegralType index.dtype = true) := by
  have hfs := IndexFillScalar_cases base dim index scalar_value
  have hft := IndexFillTensor_cases base dim index value
  have hadd := IndexAdd_cases base dim index source
  have hcopy := IndexCopy_cases base dim index source
  have iff_of : ∀ (b : Built IrValue) (P : Prop), (P → b.constructs) → (¬ P → b.rejects) →
      (b.constructs ↔ P) := by
    intro b P h1 h2
    constructor
    · intro hc
      by_contra hP
      exact not_constructs_of_rejects b (h2 hP) hc
    · exact h1
  have or_of : ∀ (b : Built IrValue) (P : Prop), (P → b.constructs) → (¬ P → b.rejects) →
      (b.constructs ∨ b.rejects) := by
    intro b P h1 h2
    by_cases hP : P
    · exact Or.inl (h1 hP)
    · exact Or.inr (h2 hP)
  have hadd_iff := iff_of _ _ hadd.1 hadd.2
  refine ⟨iff_of _ _ hfs.1 hfs.2, iff_of _ _ hft.1 hft.2, hadd_iff, iff_of _ _ hcopy.1 hcopy.2,
    or_of _ _ hfs.1 hfs.2, or_of _ _ hft.1 hft.2, or_of _ _ hadd.1 hadd.2,
    or_of _ _ hcopy.1 hcopy.2, ?_, ?_⟩
  · intro hbad
    have hnot_long : ¬ (index.dtype = ScalarType.Long ∧ index.shape.rank ≤ 1) := by
      rintro ⟨h1, h2⟩
      rcases hbad with h | h
      · omega
      · rw [h1] at h; exact absurd h (by decide)
    have hnot_int : ¬ ((index.dtype = ScalarType.Long ∨ index.dtype = ScalarType.Int) ∧
        index.shape.rank ≤ 1) := by
      rintro ⟨h1, h2⟩
      rcases hbad with h | h
      · omega
      · rcases h1 with h1 | h1 <;> (rw [h1] at h; exact absurd h (by decide))
    exact ⟨hfs.2 hnot_long, hft.2 (fun h => hnot_long ⟨h.1, h.2.1⟩), hadd.2 hnot_int,
      hcopy.2 hnot_long⟩
  · intro hc
    rcases (hadd_iff.mp hc).1 with h | h <;> (rw [h]; decide)

/-! ## Indexing by an empty list of tensors -/

theorem IndexByTensors_cons_ok (base idx : LazyTensor) (rest : List LazyTensor) (start_dim : Int)
    (t : LazyTensor) (h : (IndexByTensors base (idx :: rest) start_dim).outcome = Except.ok t) :
    (IndexByTensors base (idx :: rest) start_dim).created ≠ [] ∧
    ∃ nd, t.ir_value = IrValue.index_get base.GetIrValue nd start_dim := by
  unfold IndexByTensors at h ⊢
  simp only [List.isEmpty_cons, Bool.false_eq_true, if_false] at h ⊢
  cases hw : WrapIndicesOnce base (idx :: rest) (narrowToInt start_dim) with
  | error e => rw [hw] at h; simp at h
  | ok out =>
    cases out with
    | nil => rw [hw] at h; simp at h
    | cons front others =>
      rw [hw] at h
      simp only [Except.ok.injEq] at h
      refine ⟨by simp, ?_⟩
      rw [← h]
      exact ⟨_, rfl⟩

theorem IndexPutByTensors_cons_ok (base idx values : LazyTensor) (rest : List LazyTensor)
    (start_dim : Int) (accumulate : Bool) (result_permutation : List Int) (v : IrValue)
    (h : (IndexPutByTensors base (idx :: rest) start_dim values accumulate
      result_permutation).outcome = Except.ok v) :
    (IndexPutByTensors base (idx :: rest) start_dim values accumulate
      result_permutation).created ≠ [] ∧
    ∃ nd, v = IrValue.permute
      (IrValue.index_put base.GetIrValue nd start_dim values.GetIrValue accumulate)
      result_permutation := by
  unfold IndexPutByTensors at h ⊢
  simp only [List.isEmpty_cons, Bool.false_eq_true, if_false] at h ⊢
  cases hw : WrapIndicesOnce base (idx :: rest) (narrowToInt start_dim) with
  | error e => rw [hw] at h; simp at h
  | ok out =>
    cases out with
    | nil => rw [hw] at h; simp at h
    | cons front others =>
      rw [hw] at h
      simp only [Except.ok.injEq] at h
      refine ⟨by simp, ?_⟩
      rw [← h]
      exact ⟨_, rfl⟩

/-- C11: with no indices `IndexByTensors` returns the base itself and
`IndexPutByTensors` returns the IR value of the base as it is, whatever `start_dim`,
`values`, the accumulate flag and the result permutation are, and neither constructs a
node; with at least one index a returned result is a gather node, and a permute of a
scatter node carrying `values`, and nodes have been constructed. -/
theorem index_by_no_tensors_is_noop (base values : LazyTensor) (start_dim : Int)
    (accumulate : Bool) (result_permutation : List Int) :
    IndexByTensors base [] start_dim = { created := [], outcome := Except.ok base } ∧
    IndexPutByTensors base [] start_dim values accumulate result_permutation
      = { created := [], outcome := Except.ok base.GetIrValue } ∧
    (∀ idx rest t, (IndexByTensors base (idx :: rest) start_dim).outcome = Except.ok t →
      (IndexByTensors base (idx :: rest) start_dim).created ≠ [] ∧
      ∃ nd, t.ir_value = IrValue.index_get base.GetIrValue nd start_dim) ∧
    (∀ idx rest v,
      (IndexPutByTensors base (idx :: rest) start_dim values accumulate
        result_permutation).outcome = Except.ok v →
      (IndexPutByTensors base (idx :: rest) start_dim values accumulate
        result_permutation).created ≠ [] ∧
      ∃ nd, v = IrValue.permute
        (IrValue.index_put base.GetIrValue nd start_dim values.GetIrValue accumulate)
        result_permutation) :=
  ⟨rfl, rfl,
   fun idx rest t h => IndexByTensors_cons_ok base idx rest start_dim t h,
   fun idx rest v h =>
     IndexPutByTensors_cons_ok base idx values rest start_dim accumulate result_permutation v h⟩

/-! ## The TS computation -/

theorem create_parameter_names (graph : JitGraph) :
    (GenericComputationTS.create graph).parameter_names
      = graph.inputs.map JitValue.debugName := by
  have := foldl_push_eq (fun _ : JitValue => true) JitValue.debugName graph.inputs []
  simpa [GenericComputationTS.create] using this

/-- C12 fails as stated: on the computation built from a graph with two inputs neither
`parameter_shapes()` nor `result_shape()` returns a value. -/
theorem GenericComputationTS_shapes_counterexample :
    (¬ ∃ shapes, (GenericComputationTS.create graphTwoInputs).parameter_shapes
        = Except.ok shapes) ∧
    (¬ ∃ shape, (GenericComputationTS.create graphTwoInputs).result_shape
        = Except.ok shape) := by
  constructor
  · rintro ⟨shapes, h⟩
    simp [GenericComputationTS.parameter_shapes] at h
  · rintro ⟨shape, h⟩
    simp [GenericComputationTS.result_shape] at h

/-- C12, amended: for the computation built from any graph `parameters_size()` is the
number of graph inputs and the length of `parameter_names()`, the names are the debug
names of the graph inputs in their order, and `parameter_shapes()` and `result_shape()`
both throw a runtime error instead of returning. -/
theorem GenericComputationTS_exposes_names (graph : JitGraph) :
    (GenericComputationTS.create graph).parameters_size = (graph.inputs.length : Int) ∧
    (GenericComputationTS.create graph).parameters_size
      = ((GenericComputationTS.create graph).parameter_names.length : Int) ∧
    (GenericComputationTS.create graph).parameter_names
      = graph.inputs.map JitValue.debugName ∧
    (GenericComputationTS.create graph).parameter_shapes
      = Except.error Failure.runtime_error ∧
    (GenericComputationTS.create graph).result_shape
      = Except.error Failure.runtime_error := by
  refine ⟨?_, rfl, create_parameter_names graph, rfl, rfl⟩
  unfold GenericComputationTS.parameters_size
  rw [create_parameter_names, List.length_map]

/-! ## Cloning a node -/

/-- C13, the code on every node and operand list: the default `TsNode::Clone` writes
its message to the error log and then reaches the end of its body; it neither throws
nor executes a `return`. -/
theorem TsNode_Clone_flows_off_end (self : IrValue) (operands : List IrValue) :
    (TsNode.Clone self operands).logged_errors = ["Cloning not implemented for TsNode"] ∧
    (TsNode.Clone self operands).completion = Completion.flowed_off_end ∧
    (∀ failure, (TsNode.Clone self operands).completion ≠ Completion.threw failure) := by
  refine ⟨rfl, rfl, ?_⟩
  intro failure h
  simp [TsNode.Clone] at h

/-! ## Shape equality -/

theorem operator_eq_iff (a b : Shape) :
    a.operator_eq b = true ↔ a.at_element_type = b.at_element_type ∧ a.dims = b.dims := by
  simp [Shape.operator_eq]

theorem tuple_fields (element_shapes : List Shape) (t : Shape)
    (h : Shape.tuple element_shapes = Except.ok t) :
    ∃ first rest, element_shapes = first :: rest ∧
      t = Shape.mk true first.at_element_type [] element_shapes := by
  cases element_shapes with
  | nil => simp [Shape.tuple] at h
  | cons first rest =>
    simp only [Shape.tuple, Except.ok.injEq] at h
    exact ⟨first, rest, rfl, h.symm⟩

/-- C14: `Shape::operator==` holds exactly when the element types and the dimension
sequences agree.  The element shapes of a tuple are not compared: two tuple shapes
whose first element shapes have the same element type are equal, also when their
element shapes differ, and a tuple shape equals the array shape of rank 0 of its
element type.  The relation is reflexive, symmetric and transitive. -/
theorem Shape_operator_eq_ignores_tuple_contents :
    (∀ a b : Shape, a.operator_eq b = true ↔
      a.at_element_type = b.at_element_type ∧ a.dims = b.dims) ∧
    (∀ (xs ys : List Shape) (x y ta tb : Shape), xs.head? = some x → ys.head? = some y →
      x.at_element_type = y.at_element_type →
      Shape.tuple xs = Except.ok ta → Shape.tuple ys = Except.ok tb →
      ta.operator_eq tb = true) ∧
    (∃ ta tb : Shape,
      Shape.tuple [Shape.array ScalarType.Float [2]] = Except.ok ta ∧
      Shape.tuple [Shape.array ScalarType.Float [3], Shape.array ScalarType.Long []]
        = Except.ok tb ∧
      ta.tuple_shapes ≠ tb.tuple_shapes ∧ ta.operator_eq tb = true) ∧
    (∀ (xs : List Shape) (ta : Shape), Shape.tuple xs = Except.ok ta →
      ta.IsTuple = true ∧ (Shape.array ta.at_element_type []).IsTuple = false ∧
      ta.operator_eq (Shape.array ta.at_element_type []) = true) ∧
    (∀ a : Shape, a.operator_eq a = true) ∧
    (∀ a b : Shape, a.operator_eq b = true → b.operator_eq a = true) ∧
    (∀ a b c : Shape, a.operator_eq b = true → b.operator_eq c = true →
      a.operator_eq c = true) := by
  refine ⟨operator_eq_iff, ?_, ?_, ?_, ?_, ?_, ?_⟩
  · intro xs ys x y ta tb hx hy hxy hta htb
    obtain ⟨fa, ra, hxs, rfl⟩ := tuple_fields xs ta hta
    obtain ⟨fb, rb, hys, rfl⟩ := tuple_fields ys tb htb
    rw [hxs] at hx
    rw [hys] at hy
    simp only [List.head?_cons, Option.some.injEq] at hx hy
    rw [operator_eq_iff]
    subst hx
    subst hy
    exact ⟨hxy, rfl⟩
  · refine ⟨_, _, rfl, rfl, ?_, by rw [operator_eq_iff]; exact ⟨rfl, rfl⟩⟩
    intro h
    have hlen := congrArg List.length h
    simp [Shape.tuple_shapes] at hlen
  · intro xs ta hta
    obtain ⟨fa, ra, _, rfl⟩ := tuple_fields xs ta hta
    refine ⟨rfl, rfl, ?_⟩
    rw [operator_eq_iff]
    exact ⟨rfl, rfl⟩
  · intro a
    rw [operator_eq_iff]
    exact ⟨rfl, rfl⟩
  · intro a b h
    rw [operator_eq_iff] at h ⊢
    exact ⟨h.1.symm, h.2.symm⟩
  · intro a b c h1 h2
    rw [operator_eq_iff] at h1 h2 ⊢
    exact ⟨h1.1.trans h2.1, h1.2.trans h2.2⟩

/-! ## From the resolver to the wrap pass -/

/-- When the defined entries are exactly the positions `f, .., l`, these are the
defined positions in increasing order. -/
theorem definedPositions_of_run (indices : List Tensor) (f l : Nat)
    (hl : l < indices.length) (hfl : f ≤ l)
    (hrun : ∀ i, definedAt indices i = true ↔ f ≤ i ∧ i ≤ l) :
    (List.range indices.length).filter (definedAt indices) = List.range' f (l + 1 - f) := by
  have e1 := List.range'_append f (l + 1 - f) (indices.length - (l + 1)) 1
  have e2 := List.range'_append 0 f (indices.length - f) 1
  have a1 : f + 1 * (l + 1 - f) = l + 1 := by omega
  have a2 : indices.length - (l + 1) + (l + 1 - f) = indices.length - f := by omega
  have a3 : 0 + 1 * f = f := by omega
  have a4 : indices.length - f + f = indices.length := by omega
  rw [a1, a2] at e1
  rw [a3, a4, ← e1] at e2
  rw [List.range_eq_range', ← e2, List.filter_append, List.filter_append]
  have h1 : List.filter (definedAt indices) (List.range' 0 f) = [] := by
    rw [List.filter_eq_nil_iff]
    intro i hi h
    have := (hrun i).mp h
    have := (List.mem_range'_1.mp hi).2
    omega
  have h2 : List.filter (definedAt indices) (List.range' f (l + 1 - f))
      = List.range' f (l + 1 - f) := by
    rw [List.filter_eq_self]
    intro i hi
    have := List.mem_range'_1.mp hi
    exact (hrun i).mpr ⟨this.1, by omega⟩
  have h3 : List.filter (definedAt indices) (List.range' (l + 1) (indices.length - (l + 1)))
      = [] := by
    rw [List.filter_eq_nil_iff]
    intro i hi h
    have := (hrun i).mp h
    have := (List.mem_range'_1.mp hi).1
    omega
  rw [h1, h2, h3]
  simp

/-- The returned indices are the entries at the defined positions, in order. -/
theorem filter_defined_getElem? (indices : List Tensor) (k p : Nat)
    (hp : ((List.range indices.length).filter (definedAt indices))[k]? = some p) :
    p < indices.length ∧ (indices.filter is_defined)[k]? = indices[p]? := by
  have hmem := List.getElem?_mem hp
  have hlt : p < indices.length := List.mem_range.mp (List.mem_filter.mp hmem).1
  refine ⟨hlt, ?_⟩
  rw [← filter_range_map_getD, List.getElem?_map, hp]
  simp [List.getD_eq_getElem?_getD, List.getElem?_eq_getElem hlt]

theorem length_filter_defined (indices : List Tensor) :
    (indices.filter is_defined).length
      = ((List.range indices.length).filter (definedAt indices)).length := by
  rw [← filter_range_map_getD, List.length_map]

/-- The dimensions of the lazy tensor of a tensor are the sizes of the tensor. -/
theorem GetLtcTensor_dimensions (t : Tensor) (j size : Nat) (h : t.sizes[j]? = some size) :
    ((j : Int) < (GetLtcTensor t).shape.rank) ∧
    (GetLtcTensor t).shape.dimensions (j : Int) = Except.ok (size : Int) := by
  obtain ⟨hj, hval⟩ := List.getElem?_eq_some_iff.mp h
  have hdims : (GetLtcTensor t).shape.dims = t.sizes.map Int.ofNat := rfl
  have hrank : (GetLtcTensor t).shape.rank = (t.sizes.length : Int) := by
    unfold Shape.rank
    rw [hdims, List.length_map]
  refine ⟨by rw [hrank]; exact_mod_cast hj, ?_⟩
  unfold Shape.dimensions
  rw [hdims, List.length_map, if_pos ⟨by omega, by exact_mod_cast hj⟩]
  simp only [Int.toNat_ofNat]
  rw [List.getD_eq_getElem?_getD, List.getElem?_map, List.getElem?_eq_getElem hj, hval]
  rfl

/-- The size the wrap pass reads for the `k`-th returned index is the size of the
base axis at the position that index had in the index list. -/
theorem TransposeToFront_axis_of_index (base : Tensor) (indices : List Tensor)
    (r : CanonicalIndexInfo) (hlen : indices.length ≤ base.dim)
    (hr : TransposeToFront base indices = Except.ok r) (f l : Nat)
    (hf : definedAt indices f = true) (hmin : ∀ i, i < f → definedAt indices i = false)
    (hl : definedAt indices l = true) (hmax : ∀ i, l < i → definedAt indices i = false)
    (k p : Nat)
    (hp : ((List.range indices.length).filter (definedAt indices))[k]? = some p) :
    r.base.sizes[k + r.start_dim]? = base.sizes[p]? := by
  obtain ⟨info, hinfo, hstart, hcont⟩ := adjacency_of_first_last indices f l hf hmin hl hmax
  rw [TransposeToFront_of_adjacency base indices info hlen hinfo] at hr
  injection hr with hr
  have hplt : p < indices.length :=
    List.mem_range.mp (List.mem_filter.mp (List.getElem?_mem hp)).1
  by_cases hc : info.contiguous_non_null = true
  · rw [if_pos hc] at hr
    subst hr
    simp only
    have hllt := definedAt_lt_length hl
    have hfl : f ≤ l := by
      by_contra hcon
      rw [hmax f (by omega)] at hf
      exact Bool.noConfusion hf
    have hrun : ∀ i, definedAt indices i = true ↔ f ≤ i ∧ i ≤ l := by
      intro i
      constructor
      · intro hi
        constructor
        · by_contra hcon
          rw [hmin i (by omega)] at hi
          exact Bool.noConfusion hi
        · by_contra hcon
          rw [hmax i (by omega)] at hi
          exact Bool.noConfusion hi
      · rintro ⟨h1, h2⟩
        by_cases hif : i = f
        · rw [hif]; exact hf
        · by_cases hil : i = l
          · rw [hil]; exact hl
          · exact hcont.mp hc i (by omega) (by omega)
    rw [definedPositions_of_run indices f l hllt hfl hrun] at hp
    have hk : k < l + 1 - f := by
      have := (List.getElem?_eq_some_iff.mp hp).1
      simpa using this
    rw [List.getElem?_range' f 1 hk] at hp
    simp only [Nat.one_mul, Option.some.injEq] at hp
    rw [hstart, ← hp, Nat.add_comm]
  · rw [if_neg hc] at hr
    subst hr
    simp only [Nat.add_zero]
    have hklt : k < ((List.range indices.length).filter (definedAt indices)).length :=
      (List.getElem?_eq_some_iff.mp hp).1
    have hdk : (transposeDims base.dim indices)[k]? = some p := by
      rw [transposeDims_eq, List.append_assoc, List.getElem?_append_left hklt]
      exact hp
    have hax : base.dim = base.axes.length := by simp [Tensor.dim, Tensor.sizes]
    have hpax : p < base.axes.length := by omega
    simp only [Tensor.sizes, permuteList, List.map_map, List.getElem?_map, hdk,
      Option.map_some', Function.comp]
    rw [List.getD_eq_getElem?_getD, List.getElem?_eq_getElem hpax]
    rfl

/-- C15: for an index list no longer than the base rank that holds a defined entry,
`TransposeToFront` returns and `WrapIndicesOnce` on its output returns one tensor per
returned index.  For every `k` below the number of returned indices, with `p` the
position at which the `k`-th defined index stood in the input list, the dimension
`k + start_dim` lies below the rank of the returned base, its size is the size of the
original base along `p`, and the `k`-th tensor of the wrap pass is
`where(index < 0, index + size, index)` for that index and that size, which on 64-bit
values is `wrapValue size`. -/
theorem TransposeToFront_feeds_WrapIndicesOnce (base : Tensor) (indices : List Tensor)
    (hlen : indices.length ≤ base.dim) (hpres : ∃ i, definedAt indices i = true) :
    ∃ r out, TransposeToFront base indices = Except.ok r ∧
      WrapIndicesOnce (GetLtcTensor r.base) (r.indices.map GetLtcTensor)
        (r.start_dim : Int) = Except.ok out ∧
      out.length = r.indices.length ∧
      ∀ k, k < r.indices.length →
        ∃ p idx size,
          ((List.range indices.length).filter (definedAt indices))[k]? = some p ∧
          indices[p]? = some idx ∧
          r.indices[k]? = some idx ∧
          base.sizes[p]? = some size ∧
          (((k + r.start_dim : Nat) : Int) < (GetLtcTensor r.base).shape.rank) ∧
          (GetLtcTensor r.base).shape.dimensions ((k : Int) + (r.start_dim : Int))
            = Except.ok (size : Int) ∧
          out[k]? = some (wrapIndex (GetLtcTensor r.base) (GetLtcTensor idx) (size : Int)) ∧
          (wrapIndex (GetLtcTensor r.base) (GetLtcTensor idx) (size : Int)).ir_value
            = IrValue.where_ (IrValue.lt (GetLtcTensor idx).ir_value 0)
                (IrValue.add (GetLtcTensor idx).ir_value
                  (IrValue.scalar (size : Int) (GetLtcTensor idx).shape))
                (GetLtcTensor idx).ir_value ∧
          (∀ vs, (GetLtcTensor idx).ir_value.eval = some vs →
            vs.length = (GetLtcTensor idx).shape.numel →
            (∀ v ∈ vs, -2 ^ 63 ≤ v ∧ v < 2 ^ 63) → (size : Int) < 2 ^ 63 →
            (wrapIndex (GetLtcTensor r.base) (GetLtcTensor idx) (size : Int)).ir_value.eval
              = some (vs.map (wrapValue (size : Int)))) := by
  obtain ⟨r, hr⟩ := TransposeToFront_returns base indices hlen
  obtain ⟨f, l, hf, hmin, hl, hmax⟩ := exists_first_last indices hpres
  obtain ⟨_, hidx, _⟩ := TransposeToFront_cases base indices r hr
  have hcount : r.indices.length
      = ((List.range indices.length).filter (definedAt indices)).length := by
    rw [hidx, length_filter_defined]
  have hall : ∀ k, k < r.indices.length →
      ∃ p idx size, ((List.range indices.length).filter (definedAt indices))[k]? = some p ∧
        indices[p]? = some idx ∧ r.indices[k]? = some idx ∧ base.sizes[p]? = some size ∧
        r.base.sizes[k + r.start_dim]? = some size := by
    intro k hk
    have hk2 : k < ((List.range indices.length).filter (definedAt indices)).length := by
      rw [← hcount]; exact hk
    have hp := List.getElem?_eq_getElem hk2
    obtain ⟨hplt, hget⟩ := filter_defined_getElem? indices k _ hp
    have hps : _ < base.sizes.length := Nat.lt_of_lt_of_le hplt hlen
    refine ⟨_, indices[_], base.sizes[_], hp, List.getElem?_eq_getElem hplt, ?_,
      List.getElem?_eq_getElem hps, ?_⟩
    · rw [hidx, hget]
      exact List.getElem?_eq_getElem hplt
    · rw [TransposeToFront_axis_of_index base indices r hlen hr f l hf hmin hl hmax k _ hp]
      exact List.getElem?_eq_getElem hps
  have hpos : 0 < r.indices.length := by
    rw [hidx]
    apply List.length_pos.mpr
    intro hnil
    have hflt := definedAt_lt_length hf
    have hmem : indices.get ⟨f, hflt⟩ ∈ indices.filter is_defined := by
      rw [List.mem_filter]
      refine ⟨List.get_mem _ _ _, ?_⟩
      have := definedAt_of_getElem? (show indices[f]? = some (indices.get ⟨f, hflt⟩) by
        simp [List.getElem?_eq_getElem hflt])
      rw [hf] at this
      exact this.symm
    rw [hnil] at hmem
    simp at hmem
  obtain ⟨_, _, sizeLast, _, _, _, _, hszLast⟩ := hall (r.indices.length - 1) (by omega)
  have hbound := (GetLtcTensor_dimensions r.base _ sizeLast hszLast).1
  obtain ⟨out, hout, hlen2, hwrap⟩ := wrapLoop_spec (GetLtcTensor r.base) (r.start_dim : Int)
    (r.indices.map GetLtcTensor) 0 (by simp)
    (by rw [List.length_map]; push_cast at hbound ⊢; omega)
  refine ⟨r, out, hr, ?_, by rw [hlen2, List.length_map], ?_⟩
  · unfold WrapIndicesOnce
    rw [if_pos (by rw [List.length_map]; push_cast at hbound ⊢; omega)]
    exact hout
  · intro k hk
    obtain ⟨p, idx, size, hp, hget, hrk, hsize, hsz⟩ := hall k hk
    have hdim := GetLtcTensor_dimensions r.base _ size hsz
    have hcast : ((k : Int) + (r.start_dim : Int)) = ((k + r.start_dim : Nat) : Int) := by
      push_cast; rfl
    have hlook : (GetLtcTensor r.base).shape.dimensions ((k : Int) + (r.start_dim : Int))
        = Except.ok (size : Int) := by
      rw [hcast]; exact hdim.2
    obtain ⟨d, hd1, hd2⟩ := hwrap k (GetLtcTensor idx)
      (by rw [List.getElem?_map, hrk]; rfl)
    have hd : d = (size : Int) := by
      have h0 : (((0 + k : Nat) : Int) + (r.start_dim : Int))
          = ((k : Int) + (r.start_dim : Int)) := by
        rw [Nat.zero_add]
      rw [h0, hlook] at hd1
      injection hd1 with hd1
      exact hd1.symm
    rw [hd] at hd2
    refine ⟨p, idx, size, hp, hget, hrk, hsize, hdim.1, hlook, hd2, rfl, ?_⟩
    intro vs hvs hlenvs hrange hsmall
    exact wrapIndex_eval (GetLtcTensor r.base) (GetLtcTensor idx) (size : Int) vs hvs hlenvs
      hrange (Int.ofNat_nonneg size) hsmall

/-- C15 at `[absent, idx_a, absent]` on a base of shape `[4, 5, 6]`: `start_dim` is 1
and the index `[0, -1]` is wrapped against the size 5 of axis 1, giving `[0, 4]`. -/
theorem TransposeToFront_feeds_WrapIndicesOnce_witness :
    ∃ r out, TransposeToFront base456 [Tensor.undefined, idx_a, Tensor.undefined]
        = Except.ok r ∧
      r.start_dim = 1 ∧
      WrapIndicesOnce (GetLtcTensor r.base) (r.indices.map GetLtcTensor)
        (r.start_dim : Int) = Except.ok out ∧
      out.map (fun w => w.ir_value.eval) = [some [0, 4]] := by
  obtain ⟨r, out, hr, hout, hlen, hall⟩ :=
    TransposeToFront_feeds_WrapIndicesOnce base456
      [Tensor.undefined, idx_a, Tensor.undefined] (by decide) ⟨1, by decide⟩
  have hval : TransposeToFront base456 [Tensor.undefined, idx_a, Tensor.undefined]
      = Except.ok { base := base456, indices := [idx_a], result_permutation := [0, 1, 2],
                    start_dim := 1 } := by decide
  rw [hval] at hr
  injection hr with hr
  subst hr
  obtain ⟨p, idx, size, hp, hget, _, hsize, _, _, hk, _, _⟩ := hall 0 (by decide)
  have hp1 : p = 1 := by
    have h1 : ((List.range [Tensor.undefined, idx_a, Tensor.undefined].length).filter
        (definedAt [Tensor.undefined, idx_a, Tensor.undefined]))[0]? = some 1 := by decide
    rw [h1] at hp
    injection hp with hp
    exact hp.symm
  subst hp1
  have hidx : idx = idx_a := by
    have h1 : [Tensor.undefined, idx_a, Tensor.undefined][1]? = some idx_a := rfl
    rw [h1] at hget
    injection hget with hget
    exact hget.symm
  have hsz : size = 5 := by
    have h1 : base456.sizes[1]? = some 5 := by decide
    rw [h1] at hsize
    injection hsize with hsize
    exact hsize.symm
  subst hidx
  subst hsz
  refine ⟨_, out, hval, rfl, hout, ?_⟩
  have hlen1 : out.length = 1 := hlen
  match out, hlen1, hk with
  | [w], _, hk =>
    simp only [List.getElem?_cons_zero, Option.some.injEq] at hk
    subst hk
    rfl

end LazyIndex
